import Mathlib

/-!
The argument parsers, the dump loop and the writes of `hexedit.c`

A shallow embedding of the argument-to-bytes layer of `src/hexedit.c`.

* A C string is the list of its characters before the terminating NUL;
  reading index `i = strlen` yields the terminator, `'\x00'`.
* `long` is the 64-bit signed integer of the LP64 targets; values are `Int`s
  and the range check of `strtol` is explicit.
* `exit(1)` after a diagnostic is an `Except.error` carrying which diagnostic
  was printed.
* `strtol`, `isspace`, `isxdigit` are the C library functions in the "C"
  locale, as ISO C 7.22.1.4 and 7.4.1 describe them.
* `int` has 32 bits: a `long` stored in an `int` is reduced modulo 2^32.
* A file is the list of its bytes; `stdout` is the list of the characters
  printed; calls of `read` and `write` are taken to succeed.
-/

namespace Hexedit

/-- The diagnostics after which the program calls `exit(1)`. -/
inductive Failure where
  /-- The call `perror("strtol()")`: the conversion set `errno`. -/
  | strtolErrno
  /-- The message `error: argument with invalid characters:` and the character. -/
  | invalidCharacters (c : Char)
  /-- The message `error: argument value outside of 8 bit range:` and the value. -/
  | outsideOf8BitRange (l : Int)
  /-- The message `error: empty argument`. -/
  | emptyArgument
  /-- The message `error: ... is not a hexadecimal digit` and the character. -/
  | notHexDigit (c : Char)
  /-- The message `error: length must be 1 or more:` and the argument. -/
  | lengthTooSmall (arg : List Char)
  /-- The message `error: invalid argument:` and the argument. -/
  | invalidArgument (arg : List Char)
  /-- The message `error: offset equals or exceeds filesize`. -/
  | offsetExceedsFilesize
  /-- The call `perror("fseek()")`. -/
  | fseekFailed
  /-- The call `perror("lseek()")`. -/
  | lseekFailed
  /-- The call `abort()` of `write_to_file`. -/
  | aborted
  deriving DecidableEq, Repr

deriving instance DecidableEq for Except

/-- The largest `long`. -/
def LONG_MAX : Int := 9223372036854775807

/-- The smallest `long`. -/
def LONG_MIN : Int := -9223372036854775808

/-- The function `isspace` of `ctype.h` in the "C" locale. -/
def isspace (c : Char) : Bool :=
  c == ' ' || c == '\t' || c == '\n' || c == '\x0b' || c == '\x0c' || c == '\r'

/-- The value of a character as a digit of `strtol`: `0`-`9`, then the letters
`a`-`z` and `A`-`Z` for 10-35. -/
def digitValue (c : Char) : Option Nat :=
  if 48 ≤ c.toNat ∧ c.toNat ≤ 57 then some (c.toNat - 48)
  else if 97 ≤ c.toNat ∧ c.toNat ≤ 122 then some (c.toNat - 87)
  else if 65 ≤ c.toNat ∧ c.toNat ≤ 90 then some (c.toNat - 55)
  else none

/-- Whether `c` is a digit of the given base. -/
def isDigitOf (base : Nat) (c : Char) : Bool :=
  match digitValue c with
  | some v => decide (v < base)
  | none => false

/-- The function `isxdigit` of `ctype.h`. -/
def isxdigit (c : Char) : Bool := isDigitOf 16 c

/-- The magnitude of a digit sequence, most significant digit first. -/
def digitsValue (base : Nat) (ds : List Char) : Nat :=
  ds.foldl (fun acc c => acc * base + (digitValue c).getD 0) 0

/-- What a call `strtol(str, &endptr, base)` leaves behind. -/
structure StrtolResult where
  /-- The returned `long`. -/
  value : Int
  /-- The text `endptr` points at. -/
  endptr : List Char
  /-- Whether `errno` was set (to `ERANGE`). -/
  errno : Bool
  deriving DecidableEq, Repr

/-- The sign of the subject sequence of `strtol`: whether it is negative, and
the text after the sign. -/
def strtolSign : List Char → Bool × List Char
  | '-' :: t => (true, t)
  | '+' :: t => (false, t)
  | s => (false, s)

/-- The optional `0x`/`0X` of a base-16 subject sequence: skipped only when a
hexadecimal digit follows it. -/
def strtolPrefix (base : Nat) (s : List Char) : List Char :=
  if base = 16 then
    match s with
    | '0' :: x :: d :: t => if (x == 'x' || x == 'X') && isDigitOf 16 d then d :: t else s
    | _ => s
  else s

/-- The conversion of the subject sequence `s` of `strtol(str, ...)`: the longest
run of digits of the base is converted, `endptr` is left after it. With no
digit there is no conversion: the value is 0, `endptr` is `str` and `errno` is
untouched, as in ISO C, glibc and the Microsoft runtime (POSIX allows a
library to set `EINVAL` there). A value outside the range of `long` is
clamped and sets `errno`. -/
def strtolConvert (str : List Char) (neg : Bool) (s : List Char) (base : Nat) :
    StrtolResult :=
  let ds := s.takeWhile (isDigitOf base)
  let rest := s.dropWhile (isDigitOf base)
  if ds.isEmpty then ⟨0, str, false⟩
  else
    let mag : Int := digitsValue base ds
    if neg then
      if -mag < LONG_MIN then ⟨LONG_MIN, rest, true⟩ else ⟨-mag, rest, false⟩
    else
      if LONG_MAX < mag then ⟨LONG_MAX, rest, true⟩ else ⟨mag, rest, false⟩

/-- The C library function `strtol` for a base from 2 to 36 (the program calls it
with 8, 10 and 16): white space, an optional sign, for base 16 an optional
`0x`, then the digits. -/
def strtol (str : List Char) (base : Nat) : StrtolResult :=
  let sg := strtolSign (str.dropWhile isspace)
  strtolConvert str sg.1 (strtolPrefix base sg.2) base

/-- The function `xstrtol` of the source: `strtol()` with error checks. -/
def xstrtol (str : List Char) (base : Nat) : Except Failure Int :=
  let r := strtol str base
  if r.errno then .error .strtolErrno
  else
    match r.endptr with
    | c :: _ => .error (.invalidCharacters c)
    | [] => .ok r.value

/-- The function `strtouchar` of the source: string to unsigned char. -/
def strtouchar (str : List Char) (base : Nat) : Except Failure Nat :=
  match xstrtol str base with
  | .error e => .error e
  | .ok l => if l < 0 ∨ l > 255 then .error (.outsideOf8BitRange l) else .ok l.toNat

/-- The character `str[i]` of a C string; the terminator at `i = strlen(str)`. -/
def charAt (str : List Char) (i : Nat) : Char := str.getD i '\x00'

/-- The test of `get_long` and `memset_write_data` for a `0x`, `0X`, `\x` or `\X`
in front of at least one more character. -/
def hexPrefixed (str : List Char) : Bool :=
  decide (str.length > 2) && (charAt str 0 == '0' || charAt str 0 == '\\') &&
    (charAt str 1 == 'x' || charAt str 1 == 'X')

/-- The function `get_long` of the source: the `xstrtol()` wrapper. -/
def get_long (str : List Char) : Except Failure Int :=
  if hexPrefixed str then
    -- hexadecimal number: `copy[0] = '0'` turns a `\x` prefix into `0x`
    xstrtol (str.set 0 '0') 16
  else if decide (str.length > 1) && charAt str 0 == '0' then
    -- octal number
    xstrtol str 8
  else
    -- decimal number
    xstrtol str 10

/-- The C string held by a `char` array: its characters before the first NUL. -/
def cstr (buf : List Char) : List Char := buf.takeWhile (fun c => c != '\x00')

/-- The state of the conversion loop of `write_data`: the cells `buf[2]` and
`buf[3]` of `char buf[5] = { '0','x', 0, 0, 0 }` and the bytes stored through
`pdata` so far (`num_bytes` is their number). -/
structure WriteState where
  /-- The cell `buf[2]`. -/
  buf2 : Char
  /-- The cell `buf[3]`. -/
  buf3 : Char
  /-- The bytes stored so far, in order. -/
  data : List Nat
  deriving DecidableEq, Repr

/-- The loop `for (const char *p = arg_data; *p != 0; p++)` of `write_data`. -/
def write_data_loop : List Char → WriteState → Except Failure WriteState
  | [], st => .ok st
  | p :: ps, st =>
    if isspace p then
      -- ignore space
      write_data_loop ps st
    else if !isxdigit p then
      -- error if *p is not a hex digit
      .error (.notHexDigit p)
    else if st.buf2 == '\x00' then
      -- save char
      write_data_loop ps { st with buf2 := p }
    else if st.buf3 == '\x00' then
      -- save char, convert to byte, reset buffer
      match strtouchar (cstr ['0', 'x', st.buf2, p, '\x00']) 16 with
      | .error e => .error e
      | .ok b => write_data_loop ps ⟨'\x00', '\x00', st.data ++ [b]⟩
    else
      write_data_loop ps st

/-- The end of `write_data`: the trailing single-digit hex number. -/
def write_data_trailing (st : WriteState) : Except Failure (List Nat) :=
  if st.buf2 != '\x00' then
    match strtouchar (cstr ['0', 'x', st.buf2, st.buf3, '\x00']) 16 with
    | .error e => .error e
    | .ok b => .ok (st.data ++ [b])
  else .ok st.data

/-- The conversion loop of `write_data` run from a state, followed by the
handling of the trailing digit. -/
def write_data_convert (text : List Char) (st : WriteState) : Except Failure (List Nat) :=
  match write_data_loop text st with
  | .error e => .error e
  | .ok st' => write_data_trailing st'

/-- The function `write_data` of the source up to its call of `write_to_file`:
the result is the `num_bytes` bytes of `data` handed to `write_to_file`. -/
def write_data (arg_data : List Char) : Except Failure (List Nat) :=
  if charAt arg_data 0 == '\x00' then .error .emptyArgument
  else write_data_convert arg_data ⟨'\x00', '\x00', []⟩

/-- The `switch` over `arg_char[1]` in `memset_write_data`; `c` keeps its initial
0 in the `default` case. -/
def controlCharacter (c : Char) : Nat :=
  if c = 'n' then 10
  else if c = 't' then 9
  else if c = 'r' then 13
  else if c = 'a' then 7
  else if c = 'b' then 8
  else if c = 'f' then 12
  else if c = 'v' then 11
  else if c = 'e' then 0x1B
  else 0

/-- The resolution of `arg_char` into the byte `c` in `memset_write_data`
(the `if (chrlen == 1) ... else` chain). -/
def memset_char (arg_char : List Char) : Except Failure Nat :=
  let chrlen := arg_char.length
  if chrlen = 1 then
    -- literal character
    .ok ((charAt arg_char 0).toNat % 256)
  else if hexPrefixed arg_char then
    -- hex number (0x.. or \x..)
    strtouchar (arg_char.set 0 '0') 16
  else if charAt arg_char 0 == '\\' then
    -- control character
    let c := if chrlen = 2 then controlCharacter (charAt arg_char 1) else 0
    -- escaped decimal number
    if c = 0 then strtouchar (arg_char.drop 1) 10 else .ok c
  else .error (.invalidArgument arg_char)

/-- The function `memset_write_data` of the source up to its call of
`write_to_file`: the fill byte and the number of times it is written. -/
def memset_write_data (arg_length arg_char : List Char) : Except Failure (Nat × Int) :=
  match get_long arg_length with
  | .error e => .error e
  | .ok len =>
    if len < 1 then .error (.lengthTooSmall arg_length)
    else
      match memset_char arg_char with
      | .error e => .error e
      | .ok c => .ok (c, len)

/-- The conversion of a `long` to `int` (`int j = i + 1`, `int sk = lseek(...)`),
as gcc, clang and MSVC define it: the value is reduced modulo 2^32 into the
range of `int`. -/
def toInt (x : Int) : Int := (x + 2147483648) % 4294967296 - 2147483648

/-- The function `tolower` of `ctype.h` in the "C" locale. -/
def tolower (c : Char) : Char :=
  if 65 ≤ c.toNat ∧ c.toNat ≤ 90 then Char.ofNat (c.toNat + 32) else c

/-- Whether `strcasecmp(a, b) == 0`: the strings are equal up to letter case. -/
def strcasecmp_eq (a b : List Char) : Bool := a.map tolower == b.map tolower

/-- An uppercase hexadecimal digit of `printf`. -/
def hexUpper (d : Nat) : Char := if d < 10 then Char.ofNat (48 + d) else Char.ofNat (55 + d)

/-- The conversion `%02X` of `printf` applied to `(uint8_t)c`. -/
def format02X (c : Nat) : List Char := [hexUpper (c % 256 / 16), hexUpper (c % 256 % 16)]

/-- The loop `for (long i = 0; i < len; i++)` of `read_data` from the counter `i`
on, over the bytes the file still holds behind its position: what it prints
on `stdout`. At the end of the file `fgetc` returns `EOF`. -/
def read_data_loop (len : Int) : List Nat → Nat → List Char
  | [], i => if (i : Int) < len then ['\n'] else []
  | c :: rest, i =>
    if (i : Int) < len then
      let j := toInt ((i : Int) + 1)
      (if i > 0 ∧ j.tmod 4 = 0 ∧ j.tmod 16 ≠ 0 then ' ' :: format02X c ++ [' ']
        else ' ' :: format02X c) ++
      (if j = len ∨ (i > 0 ∧ j.tmod 16 = 0) then ['\n'] else []) ++
      read_data_loop len rest (i + 1)
    else []

/-- The function `read_data` of the source on an opened file with the content
`file`: what it prints on `stdout`, or the failure it exits with before
printing. -/
def read_data (arg_offset arg_length : List Char) (file : List Nat) :
    Except Failure (List Char) :=
  let fsize : Int := file.length
  match (if strcasecmp_eq arg_offset "append".toList then .ok fsize
      else get_long arg_offset) with
  | .error e => .error e
  | .ok offset =>
    -- check offset and filesize
    if offset ≥ fsize then .error .offsetExceedsFilesize
    -- seek to offset: `fseek` fails on a negative offset
    else if offset < 0 then .error .fseekFailed
    else
      -- get length to read
      match (if strcasecmp_eq arg_length "all".toList then .ok 0
          else get_long arg_length) with
      | .error e => .error e
      | .ok len =>
        let len := if len < 1 then fsize - offset else len
        .ok (read_data_loop len (file.drop offset.toNat) 0)

/-- The content of a file after a `write` of `bytes` at the offset `pos`: a write
of no byte leaves the file as it is; otherwise a gap behind the old end of
the file reads as zeros. -/
def fileWrite (file : List Nat) (pos : Nat) (bytes : List Nat) : List Nat :=
  if bytes.isEmpty then file
  else
    file.take pos ++ List.replicate (pos - file.length) 0 ++ bytes ++
      file.drop (pos + bytes.length)

/-- The result of `lseek(fd, offset, SEEK_SET)`: the new offset, or -1 for a
negative one. The offsets are taken to lie within the largest file size of
the file system, behind which `lseek` fails as well. -/
def lseek_set (offset : Int) : Int := if offset < 0 then -1 else offset

/-- The loop of `write_to_file` that writes `byte` once per iteration, for the
iterations that are left, on a file at the offset `pos`. -/
def write_byte_loop (byte : Nat) : Nat → List Nat → Nat → List Nat
  | 0, file, _ => file
  | k + 1, file, pos => write_byte_loop byte k (fileWrite file pos [byte]) (pos + 1)

/-- The seek of `write_to_file`: the result of `lseek(fd, 0, SEEK_END)` for the
offset `append`, of `lseek(fd, get_long(arg_offset), SEEK_SET)` otherwise. -/
def write_to_file_seek (file : List Nat) (arg_offset : List Char) : Except Failure Int :=
  if strcasecmp_eq arg_offset "append".toList then .ok (file.length : Int)
  else
    match get_long arg_offset with
    | .error e => .error e
    | .ok offset => .ok (lseek_set offset)

/-- The function `write_to_file` of the source on a file opened (or created
empty) with the content `file`: the content it leaves. Exactly one of `data`
and `byte` is given by the callers; a call of `write` is taken to succeed. -/
def write_to_file (file : List Nat) (data : Option (List Nat)) (byte : Option Nat)
    (arg_offset : List Char) (num_bytes : Int) : Except Failure (List Nat) :=
  if data.isNone && byte.isNone then .error .aborted
  else
    -- seek to offset
    match write_to_file_seek file arg_offset with
    | .error e => .error e
    | .ok pos =>
      -- `int sk = lseek(...)`
      if toInt pos = -1 then .error .lseekFailed
      else
        -- write data
        match byte with
        | some c => .ok (write_byte_loop c num_bytes.toNat file pos.toNat)
        | none => .ok (fileWrite file pos.toNat ((data.getD []).take num_bytes.toNat))

/-- The function `memset_write_data` of the source on a file with the content
`file`: the content it leaves. -/
def memset_write_data_file (arg_offset arg_length arg_char : List Char) (file : List Nat) :
    Except Failure (List Nat) :=
  match memset_write_data arg_length arg_char with
  | .error e => .error e
  | .ok (c, len) => write_to_file file none (some c) arg_offset len

/-- The indices of `data` at which the conversion loop of `write_data` and the
handling of the trailing digit store a byte, in the order of the stores: each
store goes to the index `pdata - data`, the number of bytes stored before. -/
def write_data_stores : List Char → WriteState → List Nat
  | [], st => if st.buf2 != '\x00' then [st.data.length] else []
  | p :: ps, st =>
    if isspace p then write_data_stores ps st
    else if !isxdigit p then []
    else if st.buf2 == '\x00' then write_data_stores ps { st with buf2 := p }
    else if st.buf3 == '\x00' then
      match strtouchar (cstr ['0', 'x', st.buf2, p, '\x00']) 16 with
      | .error _ => [st.data.length]
      | .ok b => st.data.length :: write_data_stores ps ⟨'\x00', '\x00', st.data ++ [b]⟩
    else write_data_stores ps st

/-! ### Reference definitions, following the specification -/

/-- The canonical base-10 rendering of an integer: an optional `-`, no leading
zeros, `0` for zero. -/
def render : Int → List Char
  | .ofNat n => Nat.toDigits 10 n
  | .negSucc n => '-' :: Nat.toDigits 10 (n + 1)

/-- The value of a hexadecimal digit, 0 for any other character. -/
def hexDigitValue (c : Char) : Nat := (digitValue c).getD 0

/-- The reference decoder on hex digits: `(high << 4) | low` for each complete
pair, then a lone last digit as its own value. -/
def pairBytes : List Char → List Nat
  | d1 :: d2 :: t => ((hexDigitValue d1 <<< 4) ||| hexDigitValue d2) :: pairBytes t
  | [d] => [hexDigitValue d]
  | [] => []

/-- The reference decoder of a write payload: white space removed, then the
digits paired. -/
def referenceDecode (text : List Char) : List Nat :=
  pairBytes (text.filter (fun c => !isspace c))

/-- A character a write payload may not contain: neither white space nor a
hexadecimal digit. -/
def notPayloadChar (c : Char) : Bool := !isspace c && !isxdigit c

/-- The hex digits still waiting in `buf[2]` for their partner. -/
def pendingDigit (b : Char) : List Char := if b = '\x00' then [] else [b]

/-- The escape table of the specification: the letter after the backslash and
the byte it stands for. -/
def escapeTable : List (Char × Nat) :=
  [('n', 0x0A), ('t', 0x09), ('r', 0x0D), ('a', 0x07), ('b', 0x08), ('f', 0x0C),
    ('v', 0x0B), ('e', 0x1B)]

/-- Whether an argument is one of the eight table escapes: a backslash and a
letter of the table. -/
def isTableEscape : List Char → Bool
  | ['\\', c] => escapeTable.any (fun e => e.1 == c)
  | _ => false

/-- A valid base-16 number with a value in 0..255: hexadecimal digits, at least
one, of value at most 255. -/
def isHexByteText (r : List Char) : Bool :=
  !r.isEmpty && r.all isxdigit && decide (digitsValue 16 r ≤ 255)

/-- A valid base-10 number with a value in 0..255: after optional white space
and an optional sign, decimal digits, at least one, of value at most 255, and
of value 0 after a minus sign. -/
def isDecimalByteText (r : List Char) : Bool :=
  let t := r.dropWhile isspace
  let u := if t.head? == some '-' || t.head? == some '+' then t.tail else t
  !u.isEmpty && u.all (isDigitOf 10) && decide (digitsValue 10 u ≤ 255) &&
    (t.head? != some '-' || digitsValue 10 u == 0)

/-- The base the specification selects for a numeric argument: 16 for a `0x`,
`0X`, `\x` or `\X` prefix with length > 2, 8 for a leading `0` with
length > 1, otherwise 10. -/
def selectedBase : List Char → Nat
  | a :: b :: _ :: _ =>
    if (a = '0' ∨ a = '\\') ∧ (b = 'x' ∨ b = 'X') then 16 else if a = '0' then 8 else 10
  | [a, _] => if a = '0' then 8 else 10
  | _ => 10

/-- The text that is converted in the selected base: the argument itself, with
the first character of a hexadecimal prefix read as `0`. -/
def selectedText (text : List Char) : List Char :=
  if selectedBase text = 16 then '0' :: text.tail else text

/-- The conversion of a numeric argument in the base the specification selects. -/
def selectedConversion (text : List Char) : StrtolResult :=
  strtol (selectedText text) (selectedBase text)

/-- The bytes of a row from its `k`-th on: a space, the two uppercase hex digits
of the byte, and one more space when `k` is 4, 8 or 12. -/
def rowBytes : List Nat → Nat → List Char
  | [], _ => []
  | c :: t, k =>
    ' ' :: format02X c ++ (if k = 4 ∨ k = 8 ∨ k = 12 then [' '] else []) ++ rowBytes t (k + 1)

/-- A row of the dump: its bytes and a line break. -/
def row (chunk : List Nat) : List Char := rowBytes chunk 1 ++ ['\n']

/-- The rows of the consecutive chunks of 16 bytes, for at most `fuel` chunks. -/
def renderRowsAux : Nat → List Nat → List Char
  | 0, _ => []
  | fuel + 1, b => if b.isEmpty then [] else row (b.take 16) ++ renderRowsAux fuel (b.drop 16)

/-- The row-by-row renderer: the rows of the consecutive chunks of 16 bytes, the
last chunk possibly shorter. -/
def renderRows (b : List Nat) : List Char := renderRowsAux b.length b

/-- The renderer that tracks the column `k` of the next byte instead of cutting
chunks: a line break follows the 16th byte of a row and the last byte. -/
def renderFrom : List Nat → Nat → List Char
  | [], _ => []
  | c :: t, k =>
    ' ' :: format02X c ++ (if k = 4 ∨ k = 8 ∨ k = 12 then [' '] else []) ++
      (if k = 16 ∨ t.isEmpty then '\n' :: renderFrom t 1 else renderFrom t (k + 1))

/-- The formatted bytes from column `k` on, with the row line breaks after every
16th byte and no line break at the end. -/
def formatBytes : List Nat → Nat → List Char
  | [], _ => []
  | c :: t, k =>
    ' ' :: format02X c ++ (if k = 4 ∨ k = 8 ∨ k = 12 then [' '] else []) ++
      (if k = 16 then '\n' :: formatBytes t 1 else formatBytes t (k + 1))

/-- The sign and the digits of a numeric argument: whether a minus sign stands in
front, and what is left of the text converted in the selected base after
white space, the sign and, in base 16, an `0x` in front of a digit. -/
def numberDigits (text : List Char) : Bool × List Char :=
  let sg := strtolSign ((selectedText text).dropWhile isspace)
  (sg.1, strtolPrefix (selectedBase text) sg.2)

/-- The hex digits of a byte sequence: two uppercase digits per byte. -/
def hexText : List Nat → List Char
  | [] => []
  | c :: t => format02X c ++ hexText t

/-! ### Characters and digits -/

theorem digitValue_of_isspace {c : Char} (h : isspace c = true) : digitValue c = none := by
  simp only [isspace, Bool.or_eq_true, beq_iff_eq] at h
  rcases h with ((((rfl | rfl) | rfl) | rfl) | rfl) | rfl <;> decide

theorem isDigitOf_iff {base : Nat} {c : Char} :
    isDigitOf base c = true ↔ ∃ v, digitValue c = some v ∧ v < base := by
  unfold isDigitOf
  cases h : digitValue c with
  | none => simp
  | some v => simp

theorem isDigitOf_eq_false_of_none {base : Nat} {c : Char} (h : digitValue c = none) :
    isDigitOf base c = false := by
  simp [isDigitOf, h]

theorem not_isspace_of_isDigitOf {base : Nat} {c : Char} (h : isDigitOf base c = true) :
    isspace c = false := by
  cases hs : isspace c with
  | false => rfl
  | true => rw [isDigitOf_eq_false_of_none (digitValue_of_isspace hs)] at h; cases h

theorem isDigitOf_mono {b b' : Nat} (hb : b ≤ b') {c : Char} (h : isDigitOf b c = true) :
    isDigitOf b' c = true := by
  obtain ⟨v, hv, hlt⟩ := isDigitOf_iff.1 h
  exact isDigitOf_iff.2 ⟨v, hv, by omega⟩

theorem dropWhile_isspace_of_digit {base : Nat} {c : Char} {t : List Char}
    (h : isDigitOf base c = true) : (c :: t).dropWhile isspace = c :: t := by
  simp [List.dropWhile, not_isspace_of_isDigitOf h]

theorem strtolSign_of_digit {base : Nat} {c : Char} {t : List Char}
    (h : isDigitOf base c = true) : strtolSign (c :: t) = (false, c :: t) := by
  have h1 : c ≠ '-' := by rintro rfl; rw [isDigitOf_eq_false_of_none (by decide)] at h; cases h
  have h2 : c ≠ '+' := by rintro rfl; rw [isDigitOf_eq_false_of_none (by decide)] at h; cases h
  unfold strtolSign
  split <;> simp_all

theorem not_isDigitOf_16_x {x : Char} (hx : x = 'x' ∨ x = 'X') : isDigitOf 16 x = false := by
  rcases hx with rfl | rfl <;> decide

/-- The `0x` test leaves a sequence of digits of the base alone. -/
theorem strtolPrefix_of_digits {base : Nat} {s : List Char}
    (h : ∀ c ∈ s, isDigitOf base c = true) : strtolPrefix base s = s := by
  unfold strtolPrefix
  split
  · next hb =>
    subst hb
    split
    · next x d t =>
      have hx := h x (by simp)
      have : ¬ ((x == 'x' || x == 'X') = true) := by
        intro hxx
        simp only [Bool.or_eq_true, beq_iff_eq] at hxx
        rw [not_isDigitOf_16_x hxx] at hx
        cases hx
      simp [this]
    · rfl
  · rfl

theorem takeWhile_of_all {p : Char → Bool} {s : List Char} (h : ∀ c ∈ s, p c = true) :
    s.takeWhile p = s := by
  induction s with
  | nil => rfl
  | cons a t ih =>
    simp only [List.takeWhile, h a (by simp)]
    rw [ih (fun c hc => h c (by simp [hc]))]

theorem dropWhile_of_all {p : Char → Bool} {s : List Char} (h : ∀ c ∈ s, p c = true) :
    s.dropWhile p = [] := by
  induction s with
  | nil => rfl
  | cons a t ih =>
    simp only [List.dropWhile, h a (by simp)]
    exact ih (fun c hc => h c (by simp [hc]))

/-- The conversion of a non-empty sequence made of digits only. -/
theorem strtolConvert_of_digits (str : List Char) (neg : Bool) {base : Nat} {s : List Char}
    (hne : s ≠ []) (h : ∀ c ∈ s, isDigitOf base c = true) :
    strtolConvert str neg s base =
      if neg then
        if -(digitsValue base s : Int) < LONG_MIN then ⟨LONG_MIN, [], true⟩
        else ⟨-(digitsValue base s : Int), [], false⟩
      else
        if LONG_MAX < (digitsValue base s : Int) then ⟨LONG_MAX, [], true⟩
        else ⟨(digitsValue base s : Int), [], false⟩ := by
  unfold strtolConvert
  simp only [takeWhile_of_all h, dropWhile_of_all h]
  have : s.isEmpty = false := by cases s <;> simp_all
  simp [this]

/-- A non-empty digit sequence whose value fits a `long` converts to its value. -/
theorem xstrtol_of_digits {base : Nat} {s : List Char} (hne : s ≠ [])
    (h : ∀ c ∈ s, isDigitOf base c = true) (hfit : (digitsValue base s : Int) ≤ LONG_MAX) :
    xstrtol s base = .ok (digitsValue base s) := by
  obtain ⟨c, t, rfl⟩ := List.exists_cons_of_ne_nil hne
  have hc := h c (by simp)
  unfold xstrtol strtol
  rw [dropWhile_isspace_of_digit hc, strtolSign_of_digit hc]
  simp only [strtolPrefix_of_digits h, strtolConvert_of_digits _ _ hne h]
  simp [not_lt.2 hfit]

/-- A `0x` or `0X` in front of hexadecimal digits is skipped. -/
theorem xstrtol_hex {x : Char} (hx : x = 'x' ∨ x = 'X') {h : List Char} (hne : h ≠ [])
    (hall : ∀ c ∈ h, isDigitOf 16 c = true) (hfit : (digitsValue 16 h : Int) ≤ LONG_MAX) :
    xstrtol ('0' :: x :: h) 16 = .ok (digitsValue 16 h) := by
  obtain ⟨d, t, rfl⟩ := List.exists_cons_of_ne_nil hne
  have hd := hall d (by simp)
  have hxx : (x == 'x' || x == 'X') = true := by
    rcases hx with rfl | rfl <;> decide
  unfold xstrtol strtol
  have h0 : ('0' :: x :: d :: t).dropWhile isspace = '0' :: x :: d :: t := by
    simp [List.dropWhile, show isspace '0' = false by decide]
  have h1 : strtolSign ('0' :: x :: d :: t) = (false, '0' :: x :: d :: t) :=
    strtolSign_of_digit (show isDigitOf 16 '0' = true by decide)
  have h2 : strtolPrefix 16 ('0' :: x :: d :: t) = d :: t := by
    simp [strtolPrefix, hxx, hd]
  rw [h0, h1]
  simp only [h2, strtolConvert_of_digits _ _ hne hall]
  simp [not_lt.2 hfit]

/-! ### `get_long` -/

theorem digitsValue_cons_zero (base : Nat) (s : List Char) :
    digitsValue base ('0' :: s) = digitsValue base s := by
  simp [digitsValue, List.foldl, show digitValue '0' = some 0 by decide]

theorem get_long_hex {p x : Char} (hp : p = '0' ∨ p = '\\') (hx : x = 'x' ∨ x = 'X')
    {h : List Char} (hne : h ≠ []) (hall : ∀ c ∈ h, isDigitOf 16 c = true)
    (hfit : (digitsValue 16 h : Int) ≤ LONG_MAX) :
    get_long (p :: x :: h) = .ok (digitsValue 16 h) := by
  obtain ⟨d, t, rfl⟩ := List.exists_cons_of_ne_nil hne
  have hpre : hexPrefixed (p :: x :: d :: t) = true := by
    rcases hp with rfl | rfl <;> rcases hx with rfl | rfl <;> simp [hexPrefixed, charAt]
  unfold get_long
  rw [if_pos hpre]
  exact xstrtol_hex hx hne hall hfit

theorem get_long_octal {o : List Char} (hne : o ≠ [])
    (hall : ∀ c ∈ o, isDigitOf 8 c = true) (hfit : (digitsValue 8 o : Int) ≤ LONG_MAX) :
    get_long ('0' :: o) = .ok (digitsValue 8 o) := by
  obtain ⟨d, t, rfl⟩ := List.exists_cons_of_ne_nil hne
  have hd := hall d (by simp)
  have hdx : ¬ (d = 'x' ∨ d = 'X') := by
    intro hx
    have := not_isDigitOf_16_x hx
    rw [isDigitOf_mono (by decide : 8 ≤ 16) hd] at this
    cases this
  have hpre : hexPrefixed ('0' :: d :: t) = false := by
    simp only [not_or] at hdx
    simp [hexPrefixed, charAt, hdx.1, hdx.2]
  have hall0 : ∀ c ∈ '0' :: d :: t, isDigitOf 8 c = true := by
    intro c hc
    rcases List.mem_cons.1 hc with rfl | hc
    · decide
    · exact hall c hc
  unfold get_long
  rw [hpre]
  simp only [Bool.false_eq_true, if_false]
  rw [if_pos (by simp [charAt])]
  rw [← digitsValue_cons_zero] at hfit ⊢
  exact xstrtol_of_digits (by simp) hall0 hfit

theorem get_long_decimal {d : List Char} (hne : d ≠ [])
    (hall : ∀ c ∈ d, isDigitOf 10 c = true) (h0 : d = ['0'] ∨ d.head? ≠ some '0')
    (hfit : (digitsValue 10 d : Int) ≤ LONG_MAX) :
    get_long d = .ok (digitsValue 10 d) := by
  have hpre : hexPrefixed d = false := by
    rcases h0 with rfl | h0
    · decide
    · obtain ⟨c, t, rfl⟩ := List.exists_cons_of_ne_nil hne
      have hc := hall c (by simp)
      have h1 : c ≠ '0' := by simpa using h0
      have h2 : c ≠ '\\' := by
        rintro rfl
        rw [isDigitOf_eq_false_of_none (by decide)] at hc
        cases hc
      simp [hexPrefixed, charAt, h1, h2]
  have hoct : (decide (d.length > 1) && charAt d 0 == '0') = false := by
    rcases h0 with rfl | h0
    · decide
    · obtain ⟨c, t, rfl⟩ := List.exists_cons_of_ne_nil hne
      have h1 : c ≠ '0' := by simpa using h0
      simp [charAt, h1]
  unfold get_long
  rw [hpre, hoct]
  simp only [Bool.false_eq_true, if_false]
  exact xstrtol_of_digits hne hall hfit

/-- The text and base the specification selects are the ones `get_long` converts. -/
theorem get_long_eq_selected (str : List Char) :
    get_long str = xstrtol (selectedText str) (selectedBase str) := by
  unfold selectedText get_long
  match str with
  | [] => simp [selectedBase, hexPrefixed, charAt]
  | [a] => simp [selectedBase, hexPrefixed, charAt]
  | [a, b] =>
    by_cases ha : a = '0' <;> simp [selectedBase, hexPrefixed, charAt, ha]
  | a :: b :: c :: t =>
    by_cases h : (a = '0' ∨ a = '\\') ∧ (b = 'x' ∨ b = 'X')
    · have hpre : hexPrefixed (a :: b :: c :: t) = true := by
        rcases h with ⟨ha | ha, hb | hb⟩ <;> simp [hexPrefixed, charAt, ha, hb]
      simp [selectedBase, h, hpre]
    · have hpre : hexPrefixed (a :: b :: c :: t) = false := by
        cases hh : hexPrefixed (a :: b :: c :: t) with
        | false => rfl
        | true =>
          exfalso; apply h
          simpa [hexPrefixed, charAt] using hh
      have hb : selectedBase (a :: b :: c :: t) = if a = '0' then 8 else 10 := by
        simp only [selectedBase]
        rw [if_neg h]
      rw [hpre, hb]
      by_cases ha : a = '0' <;> simp [ha, charAt]

/-- Claim C1, amended: `get_long` returns the value denoted in the notation
selected by the prefix, for every digit string whose value fits a `long`:
non-empty hexadecimal digits after `0x`, `0X`, `\x` or `\X`, non-empty octal
digits after `0`, and a decimal digit string that is `0` or does not start
with `0`. -/
theorem get_long_denotes :
    (∀ h : List Char, h ≠ [] → (∀ c ∈ h, isxdigit c = true) →
      (digitsValue 16 h : Int) ≤ LONG_MAX →
        get_long ('0' :: 'x' :: h) = .ok (digitsValue 16 h) ∧
        get_long ('0' :: 'X' :: h) = .ok (digitsValue 16 h) ∧
        get_long ('\\' :: 'x' :: h) = .ok (digitsValue 16 h) ∧
        get_long ('\\' :: 'X' :: h) = .ok (digitsValue 16 h)) ∧
    (∀ o : List Char, o ≠ [] → (∀ c ∈ o, isDigitOf 8 c = true) →
      (digitsValue 8 o : Int) ≤ LONG_MAX →
        get_long ('0' :: o) = .ok (digitsValue 8 o)) ∧
    (∀ d : List Char, d ≠ [] → (∀ c ∈ d, isDigitOf 10 c = true) →
      (d = ['0'] ∨ d.head? ≠ some '0') → (digitsValue 10 d : Int) ≤ LONG_MAX →
        get_long d = .ok (digitsValue 10 d)) :=
  ⟨fun _ hne hall hfit =>
    ⟨get_long_hex (Or.inl rfl) (Or.inl rfl) hne hall hfit,
     get_long_hex (Or.inl rfl) (Or.inr rfl) hne hall hfit,
     get_long_hex (Or.inr rfl) (Or.inl rfl) hne hall hfit,
     get_long_hex (Or.inr rfl) (Or.inr rfl) hne hall hfit⟩,
   fun _ hne hall hfit => get_long_octal hne hall hfit,
   fun _ hne hall h0 hfit => get_long_decimal hne hall h0 hfit⟩

/-- The witnesses of claim C1: `123`, `0x7B` and `\x7B` give 123, `0123` gives 83. -/
theorem get_long_denotes_witness :
    get_long "0x7B".toList = .ok 123 ∧ get_long "\\x7B".toList = .ok 123 ∧
    get_long "0123".toList = .ok 83 ∧ get_long "123".toList = .ok 123 :=
  ⟨(get_long_denotes.1 "7B".toList (by decide) (by decide) (by decide)).1,
   (get_long_denotes.1 "7B".toList (by decide) (by decide) (by decide)).2.2.1,
   get_long_denotes.2.1 "123".toList (by decide) (by decide) (by decide),
   get_long_denotes.2.2 "123".toList (by decide) (by decide) (by decide) (by decide)⟩

/-- Claim C1 as stated fails: an octal or decimal digit string whose value does
not fit a `long` is not converted to its value, `strtol` sets `errno` and the
program exits. -/
theorem get_long_denotes_overflow :
    ((∀ c ∈ "7777777777777777777777".toList, isDigitOf 8 c = true) ∧
      get_long ('0' :: "7777777777777777777777".toList) = .error .strtolErrno ∧
      get_long ('0' :: "7777777777777777777777".toList) ≠
        .ok (digitsValue 8 "7777777777777777777777".toList)) ∧
    ((∀ c ∈ "9223372036854775808".toList, isDigitOf 10 c = true) ∧
      get_long "9223372036854775808".toList = .error .strtolErrno ∧
      get_long "9223372036854775808".toList ≠
        .ok (digitsValue 10 "9223372036854775808".toList)) := by
  decide

/-- Claim C2: `get_long("")` does not fail. No digit is converted, `endptr` stays
at the terminator of the empty string, neither check of `xstrtol` fires and 0
is returned. -/
theorem get_long_empty : get_long [] = .ok 0 := by
  decide

/-- Claim C3, amended: when the conversion in the selected base stops before the
end of the string, `get_long` fails and returns no value; the failure is the
invalid-character one, naming the first character that was not consumed,
unless the converted digits overflow a `long`, where it is the `errno`
failure of `strtol`. -/
theorem get_long_trailing (str : List Char) (h : (selectedConversion str).endptr ≠ []) :
    (∀ v, get_long str ≠ .ok v) ∧
    ((selectedConversion str).errno = false →
      get_long str =
        .error (.invalidCharacters ((selectedConversion str).endptr.headD '\x00'))) ∧
    ((selectedConversion str).errno = true → get_long str = .error .strtolErrno) := by
  rw [get_long_eq_selected]
  unfold selectedConversion at h ⊢
  unfold xstrtol
  generalize strtol (selectedText str) (selectedBase str) = r at h ⊢
  obtain ⟨v, e, er⟩ := r
  cases er <;> cases e <;> simp_all

/-- The witnesses of claim C3: `12a`, `0x`, `\x`, `09`, `0x1G` and `\x0x1F` all
fail on their first character that is not consumed. -/
theorem get_long_trailing_witness :
    ((selectedConversion "12a".toList).endptr ≠ [] ∧
      get_long "12a".toList = .error (.invalidCharacters 'a')) ∧
    get_long "0x".toList = .error (.invalidCharacters 'x') ∧
    get_long "\\x".toList = .error (.invalidCharacters '\\') ∧
    get_long "09".toList = .error (.invalidCharacters '9') ∧
    get_long "0x1G".toList = .error (.invalidCharacters 'G') ∧
    get_long "\\x0x1F".toList = .error (.invalidCharacters 'x') :=
  ⟨⟨by decide, (get_long_trailing "12a".toList (by decide)).2.1 (by decide)⟩,
   (get_long_trailing "0x".toList (by decide)).2.1 (by decide),
   (get_long_trailing "\\x".toList (by decide)).2.1 (by decide),
   (get_long_trailing "09".toList (by decide)).2.1 (by decide),
   (get_long_trailing "0x1G".toList (by decide)).2.1 (by decide),
   (get_long_trailing "\\x0x1F".toList (by decide)).2.1 (by decide)⟩

/-- Claim C3 as stated fails: with trailing garbage after digits that overflow a
`long` the failure is the `errno` one of `strtol`, not the invalid-character
one. -/
theorem get_long_trailing_overflow :
    (selectedConversion "99999999999999999999a".toList).endptr = ['a'] ∧
    get_long "99999999999999999999a".toList = .error .strtolErrno ∧
    get_long "99999999999999999999a".toList ≠ .error (.invalidCharacters 'a') := by
  decide

/-! ### The base-10 rendering and the round trip -/

theorem digitsValue_append (base : Nat) (l : List Char) (c : Char) :
    digitsValue base (l ++ [c]) = digitsValue base l * base + (digitValue c).getD 0 := by
  simp [digitsValue, List.foldl_append]

theorem digitValue_digitChar {k : Nat} (hk : k < 10) :
    digitValue (Nat.digitChar k) = some k := by
  interval_cases k <;> decide

theorem digitChar_eq_zero {k : Nat} (hk : k < 10) (h : Nat.digitChar k = '0') : k = 0 := by
  interval_cases k <;> first | rfl | (exact absurd h (by decide))

theorem isDigitOf_digitChar {k : Nat} (hk : k < 10) : isDigitOf 10 (Nat.digitChar k) = true :=
  isDigitOf_iff.2 ⟨k, digitValue_digitChar hk, hk⟩

/-- The digits `Nat.toDigitsCore` puts in front of its accumulator. -/
theorem toDigitsCore_spec (fuel : Nat) : ∀ (n : Nat) (ds : List Char), n < fuel →
    ∃ l : List Char, Nat.toDigitsCore 10 fuel n ds = l ++ ds ∧ l ≠ [] ∧
      (∀ c ∈ l, isDigitOf 10 c = true) ∧ digitsValue 10 l = n ∧
      (l.head? = some '0' → n = 0) := by
  induction fuel with
  | zero => intro n ds h; omega
  | succ fuel ih =>
    intro n ds hn
    unfold Nat.toDigitsCore
    by_cases h0 : n / 10 = 0
    · have hlt : n < 10 := by omega
      have hmod : n % 10 = n := Nat.mod_eq_of_lt hlt
      refine ⟨[Nat.digitChar n], by simp [h0, hmod], by simp, ?_, ?_, ?_⟩
      · intro c hc
        rw [List.mem_singleton.1 hc]
        exact isDigitOf_digitChar hlt
      · simp [digitsValue, List.foldl, digitValue_digitChar hlt]
      · intro h
        exact digitChar_eq_zero hlt (by simpa using h)
    · obtain ⟨l, hl, hne, hall, hval, -⟩ := ih (n / 10) (Nat.digitChar (n % 10) :: ds) (by omega)
      have hm : n % 10 < 10 := Nat.mod_lt _ (by decide)
      refine ⟨l ++ [Nat.digitChar (n % 10)], by simp [h0, hl], by simp, ?_, ?_, ?_⟩
      · intro c hc
        rcases List.mem_append.1 hc with hc | hc
        · exact hall c hc
        · rw [List.mem_singleton.1 hc]
          exact isDigitOf_digitChar hm
      · rw [digitsValue_append, hval, digitValue_digitChar hm]
        simp only [Option.getD_some]
        omega
      · intro h
        obtain ⟨c, t, rfl⟩ := List.exists_cons_of_ne_nil hne
        have hc : c = '0' := by simpa using h
        subst hc
        obtain ⟨l2, hl2, -, -, hval2, hz⟩ :=
          ih (n / 10) (Nat.digitChar (n % 10) :: ds) (by omega)
        have : l2 = '0' :: t := by
          have := hl.symm.trans hl2
          exact (List.append_cancel_right this).symm
        subst this
        exact absurd (hz rfl) h0

/-- The decimal digits of `n`: a non-empty digit string of value `n` that is `0`
or does not start with `0`. -/
theorem toDigits_spec (n : Nat) :
    Nat.toDigits 10 n ≠ [] ∧ (∀ c ∈ Nat.toDigits 10 n, isDigitOf 10 c = true) ∧
      digitsValue 10 (Nat.toDigits 10 n) = n ∧
      (Nat.toDigits 10 n = ['0'] ∨ (Nat.toDigits 10 n).head? ≠ some '0') := by
  obtain ⟨l, hl, hne, hall, hval, hz⟩ := toDigitsCore_spec (n + 1) n [] (by omega)
  have : Nat.toDigits 10 n = l := by simpa [Nat.toDigits] using hl
  rw [this]
  refine ⟨hne, hall, hval, ?_⟩
  by_cases h : l.head? = some '0'
  · left
    have hn := hz h
    subst hn
    rw [← this]
    rfl
  · exact Or.inr h

theorem strtol_value_range (str : List Char) (base : Nat) :
    LONG_MIN ≤ (strtol str base).value ∧ (strtol str base).value ≤ LONG_MAX := by
  unfold strtol strtolConvert
  simp only [LONG_MIN, LONG_MAX]
  split_ifs <;> constructor <;> simp only [] <;> omega

theorem xstrtol_range {str : List Char} {base : Nat} {v : Int} (h : xstrtol str base = .ok v) :
    LONG_MIN ≤ v ∧ v ≤ LONG_MAX := by
  unfold xstrtol at h
  have hr := strtol_value_range str base
  generalize strtol str base = r at h hr
  obtain ⟨w, e, er⟩ := r
  cases er <;> cases e <;> simp_all

theorem get_long_range {str : List Char} {v : Int} (h : get_long str = .ok v) :
    LONG_MIN ≤ v ∧ v ≤ LONG_MAX := by
  rw [get_long_eq_selected] at h
  exact xstrtol_range h

theorem get_long_render_ofNat (n : Nat) (h : (n : Int) ≤ LONG_MAX) :
    get_long (render (Int.ofNat n)) = .ok n := by
  obtain ⟨hne, hall, hval, h0⟩ := toDigits_spec n
  have := get_long_decimal hne hall h0 (by rw [hval]; exact h)
  rw [hval] at this
  exact this

theorem get_long_render_negSucc (n : Nat) (h : LONG_MIN ≤ Int.negSucc n) :
    get_long (render (Int.negSucc n)) = .ok (Int.negSucc n) := by
  obtain ⟨hne, hall, hval, -⟩ := toDigits_spec (n + 1)
  obtain ⟨c, t, hct⟩ := List.exists_cons_of_ne_nil hne
  have hpre : hexPrefixed ('-' :: Nat.toDigits 10 (n + 1)) = false := by
    simp [hexPrefixed, charAt]
  have hoct : (decide (('-' :: Nat.toDigits 10 (n + 1)).length > 1) &&
      charAt ('-' :: Nat.toDigits 10 (n + 1)) 0 == '0') = false := by
    simp [charAt]
  have hconv := strtolConvert_of_digits ('-' :: Nat.toDigits 10 (n + 1)) true hne hall
  have hlow : ¬ (-((n + 1 : Nat) : Int) < LONG_MIN) := by
    rw [Int.negSucc_eq] at h
    push_cast
    omega
  simp only [render, get_long, hpre, hoct, Bool.false_eq_true, if_false]
  unfold xstrtol strtol
  have hdrop : ('-' :: Nat.toDigits 10 (n + 1)).dropWhile isspace =
      '-' :: Nat.toDigits 10 (n + 1) := by
    simp [List.dropWhile, show isspace '-' = false by decide]
  rw [hdrop]
  simp only [strtolSign, strtolPrefix_of_digits hall, hconv, hval]
  simp only [if_true, if_neg hlow]
  simp [Int.negSucc_eq]

/-- Every `long` is read back from its base-10 rendering. -/
theorem get_long_render {v : Int} (h1 : LONG_MIN ≤ v) (h2 : v ≤ LONG_MAX) :
    get_long (render v) = .ok v := by
  cases v with
  | ofNat n => exact get_long_render_ofNat n h2
  | negSucc n => exact get_long_render_negSucc n h1

/-- Claim C4: format-then-reparse round trip. When `get_long` succeeds on a string
with value `v`, it succeeds on the canonical base-10 rendering of `v` and
returns `v` again. -/
theorem get_long_round_trip (str : List Char) (v : Int) (h : get_long str = .ok v) :
    get_long (render v) = .ok v :=
  get_long_render (get_long_range h).1 (get_long_range h).2

/-- Claim C4 at `\x7B`, `0123` and `-42`. -/
theorem get_long_round_trip_witness :
    (get_long "\\x7B".toList = .ok 123 ∧ get_long (render 123) = .ok 123) ∧
    (get_long "0123".toList = .ok 83 ∧ get_long (render 83) = .ok 83) ∧
    (get_long "-42".toList = .ok (-42) ∧ get_long (render (-42)) = .ok (-42)) :=
  ⟨⟨by decide, get_long_round_trip "\\x7B".toList 123 (by decide)⟩,
   ⟨by decide, get_long_round_trip "0123".toList 83 (by decide)⟩,
   ⟨by decide, get_long_round_trip "-42".toList (-42) (by decide)⟩⟩

/-! ### The hex payload of `write_data` -/

theorem isxdigit_ne_nul {c : Char} (h : isxdigit c = true) : c ≠ '\x00' := by
  rintro rfl
  exact absurd h (by decide)

theorem isspace_ne_nul {c : Char} (h : isspace c = true) : c ≠ '\x00' := by
  rintro rfl
  exact absurd h (by decide)

theorem hexDigitValue_lt {c : Char} (h : isxdigit c = true) : hexDigitValue c < 16 := by
  obtain ⟨v, hv, hlt⟩ := isDigitOf_iff.1 h
  simp [hexDigitValue, hv, hlt]

theorem shift_or_eq : ∀ a < 16, ∀ b < 16, (a <<< 4) ||| b = a * 16 + b := by
  decide

/-- The per-byte conversion of a pair of hexadecimal digits never fails. -/
theorem strtouchar_pair {d1 d2 : Char} (h1 : isxdigit d1 = true) (h2 : isxdigit d2 = true) :
    strtouchar (cstr ['0', 'x', d1, d2, '\x00']) 16 =
      .ok ((hexDigitValue d1 <<< 4) ||| hexDigitValue d2) := by
  have hc : cstr ['0', 'x', d1, d2, '\x00'] = ['0', 'x', d1, d2] := by
    have e1 : (d1 != '\x00') = true := by simpa using isxdigit_ne_nul h1
    have e2 : (d2 != '\x00') = true := by simpa using isxdigit_ne_nul h2
    simp [cstr, List.takeWhile, e1, e2]
  have hall : ∀ c ∈ [d1, d2], isDigitOf 16 c = true := by
    intro c hc
    simp only [List.mem_cons, List.mem_singleton, List.not_mem_nil, or_false] at hc
    rcases hc with rfl | rfl
    · exact h1
    · exact h2
  have hv : digitsValue 16 [d1, d2] = hexDigitValue d1 * 16 + hexDigitValue d2 := by
    simp [digitsValue, List.foldl, hexDigitValue]
  have b1 := hexDigitValue_lt h1
  have b2 := hexDigitValue_lt h2
  have hfit : (digitsValue 16 [d1, d2] : Int) ≤ LONG_MAX := by
    rw [hv]; simp only [LONG_MAX]; omega
  rw [hc]
  unfold strtouchar
  rw [xstrtol_hex (Or.inl rfl) (by simp) hall hfit, hv, shift_or_eq _ b1 _ b2]
  have : ¬ (((hexDigitValue d1 * 16 + hexDigitValue d2 : Nat) : Int) < 0 ∨
      ((hexDigitValue d1 * 16 + hexDigitValue d2 : Nat) : Int) > 255) := by omega
  simp only [this, if_false, Int.toNat_ofNat]

/-- The conversion of a lone trailing hexadecimal digit never fails. -/
theorem strtouchar_single {d : Char} (h : isxdigit d = true) :
    strtouchar (cstr ['0', 'x', d, '\x00', '\x00']) 16 = .ok (hexDigitValue d) := by
  have hc : cstr ['0', 'x', d, '\x00', '\x00'] = ['0', 'x', d] := by
    have e1 : (d != '\x00') = true := by simpa using isxdigit_ne_nul h
    simp [cstr, List.takeWhile, e1]
  have hall : ∀ c ∈ [d], isDigitOf 16 c = true := by
    intro c hc
    rw [List.mem_singleton.1 hc]
    exact h
  have hv : digitsValue 16 [d] = hexDigitValue d := by
    simp [digitsValue, List.foldl, hexDigitValue]
  have b := hexDigitValue_lt h
  have hfit : (digitsValue 16 [d] : Int) ≤ LONG_MAX := by
    rw [hv]; simp only [LONG_MAX]; omega
  rw [hc]
  unfold strtouchar
  rw [xstrtol_hex (Or.inl rfl) (by simp) hall hfit, hv]
  have : ¬ (((hexDigitValue d : Nat) : Int) < 0 ∨ ((hexDigitValue d : Nat) : Int) > 255) := by
    omega
  simp only [this, if_false, Int.toNat_ofNat]

/-- The conversion loop of `write_data` from a state with an empty `buf[3]`:
it stops at the leftmost character that is neither white space nor a hex
digit, and otherwise stores the reference decoding of the digits. -/
theorem write_data_convert_spec (text : List Char) :
    ∀ (b : Char) (data : List Nat), (b = '\x00' ∨ isxdigit b = true) →
      write_data_convert text ⟨b, '\x00', data⟩ =
        match text.find? notPayloadChar with
        | some c => .error (.notHexDigit c)
        | none =>
          .ok (data ++ pairBytes (pendingDigit b ++ text.filter (fun c => !isspace c))) := by
  induction text with
  | nil =>
    intro b data hb
    rcases hb with rfl | hb
    · simp [write_data_convert, write_data_loop, write_data_trailing, pendingDigit, pairBytes]
    · have hne := isxdigit_ne_nul hb
      simp [write_data_convert, write_data_loop, write_data_trailing, pendingDigit, pairBytes,
        hne, strtouchar_single hb]
  | cons p ps ih =>
    intro b data hb
    by_cases hs : isspace p = true
    · have := ih b data hb
      simp only [write_data_convert] at this ⊢
      simp [write_data_loop, hs, notPayloadChar, List.find?, List.filter, this]
    · simp only [Bool.not_eq_true] at hs
      by_cases hx : isxdigit p = true
      · have hbad : notPayloadChar p = false := by simp [notPayloadChar, hx]
        rcases hb with rfl | hb
        · have := ih p data (Or.inr hx)
          simp only [write_data_convert] at this ⊢
          simp [write_data_loop, hs, hx, hbad, List.find?, List.filter, this, pendingDigit,
            isxdigit_ne_nul hx]
        · have hne := isxdigit_ne_nul hb
          have := ih '\x00' (data ++ [(hexDigitValue b <<< 4) ||| hexDigitValue p]) (Or.inl rfl)
          simp only [write_data_convert] at this ⊢
          simp [write_data_loop, hs, hx, hbad, hne, List.find?, List.filter, this, pendingDigit,
            strtouchar_pair hb hx, pairBytes]
      · simp only [Bool.not_eq_true] at hx
        simp [write_data_convert, write_data_loop, hs, hx, notPayloadChar, List.find?]

theorem find_notPayloadChar_none {text : List Char}
    (h : ∀ c ∈ text, isxdigit c = true ∨ isspace c = true) :
    text.find? notPayloadChar = none := by
  rw [List.find?_eq_none]
  intro c hc
  rcases h c hc with h | h <;> simp [notPayloadChar, h]

theorem find_notPayloadChar_leftmost {pre post : List Char} {c : Char}
    (hpre : ∀ a ∈ pre, isxdigit a = true ∨ isspace a = true)
    (hs : isspace c = false) (hx : isxdigit c = false) :
    (pre ++ c :: post).find? notPayloadChar = some c := by
  induction pre with
  | nil => simp [List.find?, notPayloadChar, hs, hx]
  | cons a t ih =>
    have ha : notPayloadChar a = false := by
      rcases hpre a (by simp) with h | h <;> simp [notPayloadChar, h]
    simp only [List.cons_append, List.find?, ha]
    exact ih (fun b hb => hpre b (by simp [hb]))

/-- The argument of `write_data` when its first character is not the terminator. -/
theorem write_data_of_head {text : List Char} (h : charAt text 0 ≠ '\x00') :
    write_data text =
      match text.find? notPayloadChar with
      | some c => .error (.notHexDigit c)
      | none => .ok (referenceDecode text) := by
  unfold write_data
  rw [if_neg (by simpa using h), write_data_convert_spec text '\x00' [] (Or.inl rfl)]
  simp [pendingDigit, referenceDecode]

theorem charAt_zero_ne_nul {text : List Char} (hne : text ≠ [])
    (h : ∀ c ∈ text, c ≠ '\x00') : charAt text 0 ≠ '\x00' := by
  obtain ⟨c, t, rfl⟩ := List.exists_cons_of_ne_nil hne
  simpa [charAt] using h c (by simp)

/-- Claim C5: the decoding loop of `write_data` equals the reference decoder. For
every non-empty argument made of hex digits and white space only, the bytes
handed to `write_to_file` are `(high << 4) | low` for each complete pair of
the digits with the white space removed, then a lone last digit as its own
value. -/
theorem write_data_eq_reference (text : List Char) (hne : text ≠ [])
    (h : ∀ c ∈ text, isxdigit c = true ∨ isspace c = true) :
    write_data text = .ok (referenceDecode text) := by
  have hnul : ∀ c ∈ text, c ≠ '\x00' := fun c hc =>
    (h c hc).elim isxdigit_ne_nul isspace_ne_nul
  rw [write_data_of_head (charAt_zero_ne_nul hne hnul), find_notPayloadChar_none h]

/-- Claim C5 at `DEADBEEF`, `ABC` and, with white space inside a pair, `A B\tC`. -/
theorem write_data_eq_reference_witness :
    write_data "DEADBEEF".toList = .ok [0xDE, 0xAD, 0xBE, 0xEF] ∧
    write_data "ABC".toList = .ok [0xAB, 0x0C] ∧
    write_data "A B\tC".toList = .ok [0xAB, 0x0C] :=
  ⟨write_data_eq_reference "DEADBEEF".toList (by decide) (by decide),
   write_data_eq_reference "ABC".toList (by decide) (by decide),
   write_data_eq_reference "A B\tC".toList (by decide) (by decide)⟩

/-- The emptiness test of `write_data`: it rejects the empty argument, and only it, as
empty; a non-empty argument made of white space only is accepted and yields
the payload of length 0, which is handed on to `write_to_file`. -/
theorem write_data_empty :
    write_data [] = .error .emptyArgument ∧
    ∀ text : List Char, text ≠ [] → (∀ c ∈ text, isspace c = true) →
      write_data text = .ok [] := by
  refine ⟨by decide, fun text hne h => ?_⟩
  have hnul : ∀ c ∈ text, c ≠ '\x00' := fun c hc => isspace_ne_nul (h c hc)
  rw [write_data_of_head (charAt_zero_ne_nul hne hnul),
    find_notPayloadChar_none (fun c hc => Or.inr (h c hc))]
  have : text.filter (fun c => !isspace c) = [] := by
    rw [List.filter_eq_nil_iff]
    intro c hc
    simp [h c hc]
  simp [referenceDecode, this, pairBytes]

/-- The emptiness test of `write_data` at a blank and at a tab followed by a line
feed. -/
theorem write_data_empty_witness :
    write_data " ".toList = .ok [] ∧ write_data "\t\n".toList = .ok [] :=
  ⟨write_data_empty.2 " ".toList (by decide) (by decide),
   write_data_empty.2 "\t\n".toList (by decide) (by decide)⟩

/-- Claim C6: an argument of one blank is made of white space only, hence empty
after the white space is stripped, and `write_data` does not reject it: the
test for an empty argument looks at the raw argument only, and the payload of
length 0 is handed on to `write_to_file`. -/
theorem write_data_blank_accepted :
    (∀ c ∈ " ".toList, isspace c = true) ∧ write_data " ".toList = .ok [] ∧
    write_data " ".toList ≠ .error .emptyArgument := by
  decide

/-- Claim C7: for a non-empty argument (the content of a C string), `write_data`
fails if and only if the argument has a character that is neither white space
nor a hex digit; the failure names the leftmost such character; without such
a character the decoding succeeds. -/
theorem write_data_fails_iff (text : List Char) (hne : text ≠ [])
    (hnul : ∀ c ∈ text, c ≠ '\x00') :
    ((∃ e, write_data text = .error e) ↔
      ∃ c ∈ text, isspace c = false ∧ isxdigit c = false) ∧
    (∀ (pre post : List Char) (c : Char), text = pre ++ c :: post →
      (∀ a ∈ pre, isxdigit a = true ∨ isspace a = true) →
      isspace c = false → isxdigit c = false →
        write_data text = .error (.notHexDigit c)) ∧
    ((∀ c ∈ text, isxdigit c = true ∨ isspace c = true) →
      ∃ bytes, write_data text = .ok bytes) := by
  have hw := write_data_of_head (charAt_zero_ne_nul hne hnul)
  refine ⟨?_, ?_, ?_⟩
  · constructor
    · rintro ⟨e, he⟩
      by_contra hcon
      have hall : ∀ c ∈ text, isxdigit c = true ∨ isspace c = true := by
        intro c hc
        by_contra hcc
        apply hcon
        simp only [not_or, Bool.not_eq_true] at hcc
        exact ⟨c, hc, hcc.2, hcc.1⟩
      rw [hw, find_notPayloadChar_none hall] at he
      cases he
    · rintro ⟨c, hc, hs, hx⟩
      cases hf : text.find? notPayloadChar with
      | some d => exact ⟨_, by rw [hw, hf]⟩
      | none =>
        rw [List.find?_eq_none] at hf
        exact absurd (hf c hc) (by simp [notPayloadChar, hs, hx])
  · intro pre post c ht hpre hs hx
    rw [hw, ht, find_notPayloadChar_leftmost hpre hs hx]
  · intro hall
    exact ⟨referenceDecode text, by rw [hw, find_notPayloadChar_none hall]⟩

/-- Claim C7 at `zz`, which fails on `z`, and at `0x41`, which fails on `x`. -/
theorem write_data_fails_iff_witness :
    write_data "zz".toList = .error (.notHexDigit 'z') ∧
    write_data "0x41".toList = .error (.notHexDigit 'x') :=
  ⟨(write_data_fails_iff "zz".toList (by decide) (by decide)).2.1 [] "z".toList 'z' rfl
      (by decide) (by decide) (by decide),
   (write_data_fails_iff "0x41".toList (by decide) (by decide)).2.1 "0".toList "41".toList 'x'
      rfl (by decide) (by decide) (by decide)⟩

/-! ### The byte conversion `strtouchar` -/

theorem strtouchar_le {str : List Char} {base v : Nat} (h : strtouchar str base = .ok v) :
    v ≤ 255 := by
  unfold strtouchar at h
  cases hx : xstrtol str base with
  | error e => rw [hx] at h; cases h
  | ok l =>
    rw [hx] at h
    simp only at h
    split_ifs at h with hl
    cases h
    omega

/-- The conversion leaves `endptr` inside the string unless the subject sequence
is a non-empty run of digits. -/
theorem strtolConvert_endptr_ne_nil {str : List Char} (neg : Bool) {s : List Char}
    {base : Nat} (hstr : str ≠ [])
    (h : ¬ (s ≠ [] ∧ ∀ c ∈ s, isDigitOf base c = true)) :
    (strtolConvert str neg s base).endptr ≠ [] := by
  have hd : s = [] ∨ s.dropWhile (isDigitOf base) ≠ [] := by
    by_cases hs : s = []
    · exact Or.inl hs
    · right
      intro hnil
      rw [List.dropWhile_eq_nil_iff] at hnil
      exact h ⟨hs, hnil⟩
  unfold strtolConvert
  rcases hd with rfl | hd
  · simpa using hstr
  · simp only []
    split_ifs <;> first | exact hstr | exact hd

/-- When `strtol` converts the subject sequence `s` of a non-empty string, the
byte conversion succeeds exactly on a non-empty run of digits of value at
most 255, and 0 after a minus sign. -/
theorem strtouchar_ok_iff {str : List Char} {neg : Bool} {s : List Char} {base : Nat}
    (hstr : str ≠ []) (heq : strtol str base = strtolConvert str neg s base) :
    (∃ v, strtouchar str base = .ok v) ↔
      (s ≠ [] ∧ (∀ c ∈ s, isDigitOf base c = true) ∧ digitsValue base s ≤ 255 ∧
        (neg = true → digitsValue base s = 0)) := by
  unfold strtouchar xstrtol
  rw [heq]
  by_cases hgood : s ≠ [] ∧ ∀ c ∈ s, isDigitOf base c = true
  · rw [strtolConvert_of_digits str neg hgood.1 hgood.2]
    simp only [LONG_MIN, LONG_MAX]
    cases neg
    · by_cases h1 : (9223372036854775807 : Int) < (digitsValue base s : Int)
      · simp only [Bool.false_eq_true, if_false, if_pos h1, if_true]
        constructor
        · rintro ⟨v, hv⟩; cases hv
        · rintro ⟨-, -, h255, -⟩; omega
      · simp only [Bool.false_eq_true, if_false, if_neg h1]
        by_cases h2 : (digitsValue base s : Int) < 0 ∨ (digitsValue base s : Int) > 255
        · simp only [if_pos h2]
          constructor
          · rintro ⟨v, hv⟩; cases hv
          · rintro ⟨-, -, h255, -⟩; omega
        · simp only [if_neg h2]
          constructor
          · intro _
            exact ⟨hgood.1, hgood.2, by omega, by intro h; cases h⟩
          · intro _
            exact ⟨_, rfl⟩
    · by_cases h1 : -(digitsValue base s : Int) < -9223372036854775808
      · simp only [if_true, if_pos h1]
        constructor
        · rintro ⟨v, hv⟩; cases hv
        · rintro ⟨-, -, h255, -⟩; omega
      · simp only [if_true, if_neg h1, Bool.false_eq_true, if_false]
        by_cases h2 : -(digitsValue base s : Int) < 0 ∨ -(digitsValue base s : Int) > 255
        · simp only [if_pos h2]
          constructor
          · rintro ⟨v, hv⟩; cases hv
          · rintro ⟨-, -, -, h0⟩
            have := h0 trivial
            omega
        · simp only [if_neg h2]
          constructor
          · intro _
            exact ⟨hgood.1, hgood.2, by omega, by intro _; omega⟩
          · intro _
            exact ⟨_, rfl⟩
  · have hend := strtolConvert_endptr_ne_nil neg hstr hgood
    generalize strtolConvert str neg s base = r at hend
    obtain ⟨w, e, er⟩ := r
    constructor
    · rintro ⟨v, hv⟩
      cases er <;> cases e <;> simp_all
    · rintro ⟨h1, h2, -, -⟩
      exact absurd ⟨h1, h2⟩ hgood

theorem strtouchar_fails_iff {str : List Char} {base : Nat} :
    (∃ e, strtouchar str base = .error e) ↔ ¬ ∃ v, strtouchar str base = .ok v := by
  cases strtouchar str base <;> simp

/-- After `0x` or `0X` the byte conversion succeeds exactly on hexadecimal digits of
value at most 255. -/
theorem strtouchar_hex_iff {x : Char} (hx : x = 'x' ∨ x = 'X') {r : List Char} (hne : r ≠ []) :
    (∃ v, strtouchar ('0' :: x :: r) 16 = .ok v) ↔ isHexByteText r = true := by
  obtain ⟨d, t, rfl⟩ := List.exists_cons_of_ne_nil hne
  have hxx : (x == 'x' || x == 'X') = true := by
    rcases hx with rfl | rfl <;> decide
  have h0 : ('0' :: x :: d :: t).dropWhile isspace = '0' :: x :: d :: t := by
    simp [List.dropWhile, show isspace '0' = false by decide]
  have h1 : strtolSign ('0' :: x :: d :: t) = (false, '0' :: x :: d :: t) :=
    strtolSign_of_digit (show isDigitOf 16 '0' = true by decide)
  by_cases hd : isDigitOf 16 d = true
  · have heq : strtol ('0' :: x :: d :: t) 16 =
        strtolConvert ('0' :: x :: d :: t) false (d :: t) 16 := by
      unfold strtol
      rw [h0, h1]
      simp [strtolPrefix, hxx, hd]
    rw [strtouchar_ok_iff (by simp) heq]
    simp [isHexByteText, isxdigit]
  · have heq : strtol ('0' :: x :: d :: t) 16 =
        strtolConvert ('0' :: x :: d :: t) false ('0' :: x :: d :: t) 16 := by
      unfold strtol
      rw [h0, h1]
      simp [strtolPrefix, hxx, hd]
    rw [strtouchar_ok_iff (by simp) heq]
    simp only [Bool.not_eq_true] at hd
    constructor
    · rintro ⟨-, hall, -, -⟩
      have := hall x (by simp)
      rw [not_isDigitOf_16_x hx] at this
      cases this
    · intro h
      simp [isHexByteText, isxdigit, hd] at h

theorem strtolSign_eq (t : List Char) :
    strtolSign t =
      (t.head? == some '-',
        if t.head? == some '-' || t.head? == some '+' then t.tail else t) := by
  match t with
  | [] => simp [strtolSign]
  | c :: u =>
    by_cases h1 : c = '-'
    · subst h1; simp [strtolSign]
    · by_cases h2 : c = '+'
      · subst h2; simp [strtolSign]
      · unfold strtolSign
        split <;> simp_all

/-- In base 10 the byte conversion of a non-empty text succeeds exactly on a valid
base-10 number with a value in 0..255. -/
theorem strtouchar_dec_iff {r : List Char} (hne : r ≠ []) :
    (∃ v, strtouchar r 10 = .ok v) ↔ isDecimalByteText r = true := by
  have heq : strtol r 10 = strtolConvert r (strtolSign (r.dropWhile isspace)).1
      (strtolSign (r.dropWhile isspace)).2 10 := by
    simp [strtol, strtolPrefix]
  rw [strtouchar_ok_iff hne heq, strtolSign_eq]
  simp only [isDecimalByteText]
  generalize r.dropWhile isspace = t
  generalize (if t.head? == some '-' || t.head? == some '+' then t.tail else t) = u
  by_cases hneg : t.head? = some '-' <;> cases u <;> simp [hneg, and_assoc]

/-! ### The fill byte of `memset_write_data` -/

theorem controlCharacter_ne_zero_iff (c : Char) :
    controlCharacter c ≠ 0 ↔ escapeTable.any (fun e => e.1 == c) = true := by
  unfold controlCharacter escapeTable
  simp only [List.any_cons, List.any_nil, Bool.or_false, Bool.or_eq_true, beq_iff_eq]
  split_ifs <;> simp_all [eq_comm]

theorem controlCharacter_of_digit {c : Char} (h : isDigitOf 10 c = true) :
    controlCharacter c = 0 := by
  by_contra hc
  have hc := (controlCharacter_ne_zero_iff c).1 hc
  simp only [escapeTable, List.any_cons, List.any_nil, Bool.or_false, Bool.or_eq_true,
    beq_iff_eq] at hc
  rcases hc with rfl | rfl | rfl | rfl | rfl | rfl | rfl | rfl <;>
    exact absurd h (by decide)

theorem memset_char_hex {p x : Char} (hp : p = '0' ∨ p = '\\') (hx : x = 'x' ∨ x = 'X')
    {r : List Char} (hne : r ≠ []) :
    memset_char (p :: x :: r) = strtouchar ('0' :: x :: r) 16 := by
  obtain ⟨d, t, rfl⟩ := List.exists_cons_of_ne_nil hne
  have hpre : hexPrefixed (p :: x :: d :: t) = true := by
    rcases hp with rfl | rfl <;> rcases hx with rfl | rfl <;> simp [hexPrefixed, charAt]
  simp [memset_char, hpre]

/-- An argument that starts with a backslash, has another length than 1 and no
hexadecimal prefix: a table escape is its table entry, anything else the
base-10 byte conversion of the text after the backslash. -/
theorem memset_char_backslash {rest : List Char} (hne : rest ≠ [])
    (hpre : hexPrefixed ('\\' :: rest) = false) :
    memset_char ('\\' :: rest) =
      if isTableEscape ('\\' :: rest) then .ok (controlCharacter (charAt rest 0))
      else strtouchar rest 10 := by
  match rest, hne with
  | [c], _ =>
    have hdef : isTableEscape ['\\', c] = escapeTable.any (fun e => e.1 == c) := rfl
    by_cases hc : controlCharacter c = 0
    · have ht : isTableEscape ['\\', c] = false := by
        rw [hdef]
        have := (controlCharacter_ne_zero_iff c).not.1 (by simpa using hc)
        simpa only [Bool.not_eq_true] using this
      simp [memset_char, hexPrefixed, charAt, hc, ht]
    · have ht : isTableEscape ['\\', c] = true := by
        rw [hdef]
        exact (controlCharacter_ne_zero_iff c).1 hc
      simp [memset_char, hexPrefixed, charAt, hc, ht]
  | c :: d :: t, _ =>
    have ht : isTableEscape ('\\' :: c :: d :: t) = false := by simp [isTableEscape]
    simp [memset_char, hpre, charAt, ht]

theorem strtouchar_of_xstrtol {str : List Char} {base n : Nat}
    (h : xstrtol str base = .ok (n : Int)) (hn : n ≤ 255) : strtouchar str base = .ok n := by
  unfold strtouchar
  rw [h]
  have : ¬ ((n : Int) < 0 ∨ (n : Int) > 255) := by omega
  simp only [this, if_false, Int.toNat_ofNat]

theorem controlCharacter_le (c : Char) : controlCharacter c ≤ 255 := by
  unfold controlCharacter
  split_ifs <;> omega

theorem hexPrefixed_cons_iff {c d : Char} {t : List Char} :
    hexPrefixed (c :: d :: t) = true ↔
      t ≠ [] ∧ (c = '0' ∨ c = '\\') ∧ (d = 'x' ∨ d = 'X') := by
  cases t <;> simp [hexPrefixed, charAt]

theorem memset_char_decimal {d : List Char} (hne : d ≠ [])
    (hall : ∀ c ∈ d, isDigitOf 10 c = true) (h255 : digitsValue 10 d ≤ 255) :
    memset_char ('\\' :: d) = .ok (digitsValue 10 d) := by
  obtain ⟨c, t, rfl⟩ := List.exists_cons_of_ne_nil hne
  have hc := hall c (by simp)
  have hcx : ¬ (c = 'x' ∨ c = 'X') := by
    rintro (rfl | rfl) <;> exact absurd hc (by decide)
  have hpre : hexPrefixed ('\\' :: c :: t) = false := by
    cases h : hexPrefixed ('\\' :: c :: t) with
    | false => rfl
    | true => exact absurd (hexPrefixed_cons_iff.1 h).2.2 hcx
  have htab : isTableEscape ('\\' :: c :: t) = false := by
    cases t with
    | nil =>
      have hdef : isTableEscape ['\\', c] = escapeTable.any (fun e => e.1 == c) := rfl
      rw [hdef]
      have := (controlCharacter_ne_zero_iff c).not.1 (by simp [controlCharacter_of_digit hc])
      simpa only [Bool.not_eq_true] using this
    | cons b u => simp [isTableEscape]
  rw [memset_char_backslash hne hpre, htab]
  simp only [Bool.false_eq_true, if_false]
  exact strtouchar_of_xstrtol
    (xstrtol_of_digits hne hall (by simp only [LONG_MAX]; omega)) h255

/-- Claim C8: the resolution order of the fill byte, first match wins.
(1) A 1-character argument is that character's byte (`A` is 0x41, `0` is
0x30, a lone backslash 0x5C). (2) Behind `0x`, `0X`, `\x` or `\X`, hex digits
of value at most 255 yield that value. (3) A backslash and a letter of the
escape table yield the table entry, not the decimal branch. (4) Any other
argument with a backslash in front is the base-10 byte conversion of the text
after the backslash; decimal digits of value at most 255 yield that value,
leading zeros included. -/
theorem memset_char_resolution :
    ((∀ c : Char, memset_char [c] = .ok (c.toNat % 256)) ∧
      memset_char ['A'] = .ok 0x41 ∧ memset_char ['0'] = .ok 0x30 ∧
      memset_char ['\\'] = .ok 0x5C) ∧
    (∀ (p x : Char) (r : List Char), (p = '0' ∨ p = '\\') → (x = 'x' ∨ x = 'X') →
      r ≠ [] → (∀ c ∈ r, isxdigit c = true) → digitsValue 16 r ≤ 255 →
        memset_char (p :: x :: r) = .ok (digitsValue 16 r)) ∧
    (∀ e ∈ escapeTable, memset_char ['\\', e.1] = .ok e.2) ∧
    (∀ rest : List Char, rest ≠ [] → hexPrefixed ('\\' :: rest) = false →
      isTableEscape ('\\' :: rest) = false →
        memset_char ('\\' :: rest) = strtouchar rest 10) ∧
    (∀ d : List Char, d ≠ [] → (∀ c ∈ d, isDigitOf 10 c = true) → digitsValue 10 d ≤ 255 →
      memset_char ('\\' :: d) = .ok (digitsValue 10 d)) := by
  refine ⟨⟨fun c => by simp [memset_char, charAt], by decide, by decide, by decide⟩,
    ?_, by decide, ?_, fun d hne hall h255 => memset_char_decimal hne hall h255⟩
  · intro p x r hp hx hne hall h255
    rw [memset_char_hex hp hx hne]
    exact strtouchar_of_xstrtol
      (xstrtol_hex hx hne hall (by simp only [LONG_MAX]; omega)) h255
  · intro rest hne hpre htab
    rw [memset_char_backslash hne hpre, htab]
    simp

/-- Claim C8 at `0x41`, `\x41`, `\n`, `\q`, `\65` and `\065`. -/
theorem memset_char_resolution_witness :
    memset_char "0x41".toList = .ok 0x41 ∧ memset_char "\\x41".toList = .ok 0x41 ∧
    memset_char "\\n".toList = .ok 0x0A ∧
    memset_char "\\q".toList = strtouchar "q".toList 10 ∧
    memset_char "\\65".toList = .ok 0x41 ∧ memset_char "\\065".toList = .ok 0x41 :=
  ⟨memset_char_resolution.2.1 '0' 'x' "41".toList (Or.inl rfl) (Or.inl rfl) (by decide)
      (by decide) (by decide),
   memset_char_resolution.2.1 '\\' 'x' "41".toList (Or.inr rfl) (Or.inl rfl) (by decide)
      (by decide) (by decide),
   memset_char_resolution.2.2.1 ('n', 0x0A) (by decide),
   memset_char_resolution.2.2.2.1 "q".toList (by decide) (by decide) (by decide),
   memset_char_resolution.2.2.2.2 "65".toList (by decide) (by decide) (by decide),
   memset_char_resolution.2.2.2.2 "065".toList (by decide) (by decide) (by decide)⟩

/-- Claim C9: the fill byte `0101`, an octal number with the prefix `0`, is
rejected as an invalid argument, while `get_long` reads the same text as the
octal number 65. -/
theorem memset_char_octal_rejected :
    memset_char "0101".toList = .error (.invalidArgument "0101".toList) ∧
    get_long "0101".toList = .ok 0x41 := by
  decide

/-- Claim C10, amended: the fill byte resolution fails exactly when (i) the
argument has another length than 1, no backslash in front and no hexadecimal
prefix, or (ii) it has a hexadecimal prefix and the rest is not hex digits of
value at most 255, or (iii) it starts with a backslash, has another length
than 1 and no hexadecimal prefix, is not a table escape, and the text after
the backslash is not a valid base-10 number of value 0..255. In every other
case one byte, at most 255, results. -/
theorem memset_char_fails_iff (a : List Char) :
    ((∃ e, memset_char a = .error e) ↔
      (a.length ≠ 1 ∧ charAt a 0 ≠ '\\' ∧ hexPrefixed a = false) ∨
      (hexPrefixed a = true ∧ isHexByteText (a.drop 2) = false) ∨
      (a.length ≠ 1 ∧ charAt a 0 = '\\' ∧ hexPrefixed a = false ∧
        isTableEscape a = false ∧ isDecimalByteText (a.drop 1) = false)) ∧
    (∀ v, memset_char a = .ok v → v ≤ 255) := by
  match a with
  | [] => simp [memset_char, hexPrefixed, charAt]
  | [c] =>
    refine ⟨by simp [memset_char, hexPrefixed, charAt], fun v hv => ?_⟩
    simp only [memset_char, List.length_singleton, if_true, Except.ok.injEq] at hv
    omega
  | c :: d :: t =>
    by_cases hpre : hexPrefixed (c :: d :: t) = true
    · obtain ⟨ht, hc, hd⟩ := hexPrefixed_cons_iff.1 hpre
      rw [memset_char_hex hc hd ht]
      refine ⟨?_, fun v hv => strtouchar_le hv⟩
      rw [strtouchar_fails_iff, strtouchar_hex_iff hd ht]
      simp [hpre]
    · simp only [Bool.not_eq_true] at hpre
      by_cases hb : c = '\\'
      · subst hb
        rw [memset_char_backslash (by simp) hpre]
        by_cases htab : isTableEscape ('\\' :: d :: t) = true
        · refine ⟨by simp [htab, hpre, charAt], fun v hv => ?_⟩
          simp only [htab, if_true, Except.ok.injEq] at hv
          rw [← hv]
          exact controlCharacter_le _
        · simp only [Bool.not_eq_true] at htab
          simp only [htab, Bool.false_eq_true, if_false]
          refine ⟨?_, fun v hv => strtouchar_le hv⟩
          rw [strtouchar_fails_iff, strtouchar_dec_iff (by simp)]
          simp [hpre, htab, charAt]
      · have : memset_char (c :: d :: t) = .error (.invalidArgument (c :: d :: t)) := by
          simp [memset_char, hpre, charAt, hb]
        rw [this]
        simp [hpre, charAt, hb]

/-- Claim C10 as stated fails: `\x41` starts with a backslash, is no table
escape, and the text after the backslash, `x41`, is no base-10 number, yet the
resolution succeeds with 0x41, through the hexadecimal branch that comes
first. -/
theorem memset_char_hex_escape_succeeds :
    charAt "\\x41".toList 0 = '\\' ∧ isTableEscape "\\x41".toList = false ∧
    isDecimalByteText "x41".toList = false ∧
    strtouchar "x41".toList 10 = .error (.invalidCharacters 'x') ∧
    memset_char "\\x41".toList = .ok 0x41 := by
  decide

/-- The failing and succeeding examples of the specification for the fill byte. -/
theorem memset_char_examples :
    memset_char "".toList = .error (.invalidArgument "".toList) ∧
    memset_char "AB".toList = .error (.invalidArgument "AB".toList) ∧
    memset_char "0x".toList = .error (.invalidArgument "0x".toList) ∧
    memset_char "0x100".toList = .error (.outsideOf8BitRange 256) ∧
    memset_char "\\xZZ".toList = .error (.invalidCharacters 'x') ∧
    memset_char "\\256".toList = .error (.outsideOf8BitRange 256) ∧
    memset_char "\\-1".toList = .error (.outsideOf8BitRange (-1)) ∧
    memset_char "\\q".toList = .error (.invalidCharacters 'q') ∧
    memset_char "\\x".toList = .error (.invalidCharacters 'x') := by
  decide

/-! ### The dump loop of `read_data` -/

theorem toInt_tmod_sixteen (x : Int) : (toInt x).tmod 16 = 0 ↔ x % 16 = 0 := by
  rw [← Int.dvd_iff_tmod_eq_zero]
  unfold toInt
  omega

theorem toInt_tmod_four (x : Int) : (toInt x).tmod 4 = 0 ↔ x % 4 = 0 := by
  rw [← Int.dvd_iff_tmod_eq_zero]
  unfold toInt
  omega

theorem toInt_eq_len {i : Nat} {len : Int} (h : (i : Int) < len) :
    toInt ((i : Int) + 1) = len ↔ (i : Int) + 1 = len ∧ len ≤ 2147483647 := by
  unfold toInt
  omega

/-- One iteration of the dump loop on a byte, with the `int j` read back as
the counter it was converted from. -/
theorem read_data_loop_cons (len : Int) (c : Nat) (rest : List Nat) (i : Nat)
    (h : (i : Int) < len) :
    read_data_loop len (c :: rest) i =
      ' ' :: format02X c ++ (if (i + 1) % 4 = 0 ∧ (i + 1) % 16 ≠ 0 then [' '] else []) ++
        (if ((i : Int) + 1 = len ∧ len ≤ 2147483647) ∨ (i + 1) % 16 = 0 then ['\n'] else []) ++
        read_data_loop len rest (i + 1) := by
  have h16 : (toInt ((i : Int) + 1)).tmod 16 = 0 ↔ (i + 1) % 16 = 0 := by
    rw [toInt_tmod_sixteen]; omega
  have h4 : (toInt ((i : Int) + 1)).tmod 4 = 0 ↔ (i + 1) % 4 = 0 := by
    rw [toInt_tmod_four]; omega
  have c1 : (i > 0 ∧ (toInt ((i : Int) + 1)).tmod 4 = 0 ∧ (toInt ((i : Int) + 1)).tmod 16 ≠ 0) ↔
      ((i + 1) % 4 = 0 ∧ (i + 1) % 16 ≠ 0) := by
    rw [h4, Ne, h16]; omega
  have c2 : (toInt ((i : Int) + 1) = len ∨ (i > 0 ∧ (toInt ((i : Int) + 1)).tmod 16 = 0)) ↔
      (((i : Int) + 1 = len ∧ len ≤ 2147483647) ∨ (i + 1) % 16 = 0) := by
    rw [h16, toInt_eq_len h]; omega
  rw [read_data_loop, if_pos h]
  simp only [c1, c2]
  by_cases e1 : (i + 1) % 4 = 0 ∧ (i + 1) % 16 ≠ 0 <;> simp [e1]

theorem read_data_loop_done (len : Int) (b : List Nat) (i : Nat) (h : ¬ (i : Int) < len) :
    read_data_loop len b i = [] := by
  cases b <;> simp [read_data_loop, h]

/-- The dump loop asked for exactly the bytes there are, at most `INT_MAX` of them,
is the renderer that tracks the column. -/
theorem read_data_loop_eq_renderFrom (len : Int) (hlen : len ≤ 2147483647) :
    ∀ (b : List Nat) (i : Nat), (i : Int) + b.length = len →
      read_data_loop len b i = renderFrom b (i % 16 + 1) := by
  intro b
  induction b with
  | nil =>
    intro i h
    simp only [List.length_nil, Nat.cast_zero, add_zero] at h
    rw [read_data_loop_done len [] i (by omega)]
    rfl
  | cons c t ih =>
    intro i h
    simp only [List.length_cons, Nat.cast_add, Nat.cast_one] at h
    rw [read_data_loop_cons len c t i (by omega), renderFrom]
    have hk : (i % 16 + 1 = 4 ∨ i % 16 + 1 = 8 ∨ i % 16 + 1 = 12) ↔
        ((i + 1) % 4 = 0 ∧ (i + 1) % 16 ≠ 0) := by omega
    have hrest : (if ((i : Int) + 1 = len ∧ len ≤ 2147483647) ∨ (i + 1) % 16 = 0
          then ['\n'] else []) ++ read_data_loop len t (i + 1) =
        (if i % 16 + 1 = 16 ∨ t.isEmpty = true then '\n' :: renderFrom t 1
          else renderFrom t (i % 16 + 1 + 1)) := by
      rw [ih (i + 1) (by push_cast; omega)]
      by_cases h16 : (i + 1) % 16 = 0
      · have e1 : i % 16 + 1 = 16 := by omega
        have e2 : (i + 1) % 16 + 1 = 1 := by omega
        simp [h16, e1, e2]
      · have e1 : ¬ i % 16 + 1 = 16 := by omega
        have e2 : (i + 1) % 16 + 1 = i % 16 + 1 + 1 := by omega
        cases t with
        | nil =>
          have hl : (i : Int) + 1 = len := by simpa using h
          simp [hl, hlen, renderFrom]
        | cons d u =>
          have hl : ¬ ((i : Int) + 1 = len) := by
            simp only [List.length_cons, Nat.cast_add, Nat.cast_one] at h
            omega
          simp [h16, e1, e2, hl]
    simp only [hk]
    rw [List.append_assoc, hrest]

/-! ### The row-by-row renderer -/

theorem renderFrom_row_append : ∀ (t : List Nat) (k : Nat) (rest : List Nat), t ≠ [] →
    k + t.length = 17 →
      renderFrom (t ++ rest) k = rowBytes t k ++ '\n' :: renderFrom rest 1 := by
  intro t
  induction t with
  | nil => intro k rest h; exact absurd rfl h
  | cons c u ih =>
    intro k rest _ hk
    cases u with
    | nil =>
      have : k = 16 := by simpa using hk
      subst this
      simp [renderFrom, rowBytes]
    | cons d v =>
      simp only [List.length_cons] at hk
      have h16 : ¬ k = 16 := by omega
      have := ih (k + 1) rest (by simp) (by simp only [List.length_cons]; omega)
      simp only [List.cons_append] at this ⊢
      rw [renderFrom, rowBytes, this]
      simp [h16]

theorem renderFrom_row : ∀ (t : List Nat) (k : Nat), t ≠ [] → k + t.length ≤ 17 →
    renderFrom t k = rowBytes t k ++ ['\n'] := by
  intro t
  induction t with
  | nil => intro k h; exact absurd rfl h
  | cons c u ih =>
    intro k _ hk
    cases u with
    | nil => simp [renderFrom, rowBytes]
    | cons d v =>
      simp only [List.length_cons] at hk
      have h16 : ¬ k = 16 := by omega
      have := ih (k + 1) (by simp) (by simp only [List.length_cons]; omega)
      rw [renderFrom, rowBytes, this]
      simp [h16]

theorem renderRowsAux_eq_renderFrom : ∀ (fuel : Nat) (b : List Nat), b.length ≤ fuel →
    renderRowsAux fuel b = renderFrom b 1 := by
  intro fuel
  induction fuel with
  | zero =>
    intro b h
    have : b = [] := List.eq_nil_of_length_eq_zero (by omega)
    subst this
    rfl
  | succ fuel ih =>
    intro b h
    by_cases hb : b = []
    · subst hb; rfl
    · have hne : b.isEmpty = false := by cases b <;> simp_all
      rw [renderRowsAux, hne]
      simp only [Bool.false_eq_true, if_false]
      have hpos : 0 < b.length := List.length_pos.2 hb
      by_cases hlen : b.length ≤ 16
      · have h1 : b.take 16 = b := List.take_of_length_le hlen
        have h2 : b.drop 16 = [] := List.drop_of_length_le hlen
        rw [h1, h2, ih [] (by simp), renderFrom_row b 1 hb (by omega)]
        simp [row, renderFrom]
      · have h1 : (b.take 16).length = 16 := by rw [List.length_take]; omega
        have hne16 : b.take 16 ≠ [] := by
          intro h0; rw [h0] at h1; simp at h1
        have := renderFrom_row_append (b.take 16) 1 (b.drop 16) hne16 (by omega)
        rw [List.take_append_drop] at this
        rw [this, ih (b.drop 16) (by rw [List.length_drop]; omega)]
        simp [row]

theorem renderRows_eq_renderFrom (b : List Nat) : renderRows b = renderFrom b 1 :=
  renderRowsAux_eq_renderFrom b.length b (le_refl _)

/-- The dump loop asked for exactly the bytes there are, at most `INT_MAX` of them,
prints the rows of the consecutive chunks of 16 bytes. -/
theorem read_data_loop_eq_renderRows (b : List Nat) (h : b.length ≤ 2147483647) :
    read_data_loop b.length b 0 = renderRows b := by
  rw [renderRows_eq_renderFrom,
    read_data_loop_eq_renderFrom b.length (by omega) b 0 (by simp)]

/-- Claim C11, amended: the dump of 17 bytes (requested length 17) is two lines.
The first holds 16 hex pairs, each behind one space, with one more space,
the widened separator, before the bytes 5, 9 and 13 only; the first byte of a
line has the single space of the other bytes. The second line holds the 17th
byte alone, behind one space, and a line break. -/
theorem read_data_loop_seventeen (b1 b2 b3 b4 b5 b6 b7 b8 b9 b10 b11 b12 b13 b14 b15 b16
    b17 : Nat) :
    read_data_loop 17 [b1, b2, b3, b4, b5, b6, b7, b8, b9, b10, b11, b12, b13, b14, b15, b16,
        b17] 0 =
      ' ' :: format02X b1 ++ ' ' :: format02X b2 ++ ' ' :: format02X b3 ++
      ' ' :: format02X b4 ++ ' ' :: ' ' :: format02X b5 ++ ' ' :: format02X b6 ++
      ' ' :: format02X b7 ++ ' ' :: format02X b8 ++ ' ' :: ' ' :: format02X b9 ++
      ' ' :: format02X b10 ++ ' ' :: format02X b11 ++ ' ' :: format02X b12 ++
      ' ' :: ' ' :: format02X b13 ++ ' ' :: format02X b14 ++ ' ' :: format02X b15 ++
      ' ' :: format02X b16 ++ '\n' :: ' ' :: format02X b17 ++ ['\n'] := by
  rw [read_data_loop_eq_renderFrom 17 (by decide) _ 0 (by simp)]
  simp [renderFrom, format02X]

/-- Claim C11 as stated fails: in the dump of the bytes 0 to 16 the first byte of
the line is preceded by one space, as the second byte is, not by a widened
separator; only the bytes 5, 9 and 13 have two spaces in front. -/
theorem read_data_loop_first_byte_single_space :
    read_data_loop 17 (List.range 17) 0 =
      " 00 01 02 03  04 05 06 07  08 09 0A 0B  0C 0D 0E 0F\n 10\n".toList ∧
    ((read_data_loop 17 (List.range 17) 0).takeWhile (fun c => c == ' ')).length = 1 ∧
    (((read_data_loop 17 (List.range 17) 0).drop 3).takeWhile (fun c => c == ' ')).length = 1 ∧
    (((read_data_loop 17 (List.range 17) 0).drop 12).takeWhile (fun c => c == ' ')).length = 2 := by
  decide

theorem hexUpper_ne_newline (c : Nat) : hexUpper (c % 256 % 16) ≠ '\n' := by
  have h : c % 256 % 16 < 16 := Nat.mod_lt _ (by decide)
  generalize c % 256 % 16 = d at h
  interval_cases d <;> decide

theorem renderFrom_getLast : ∀ (b : List Nat) (k : Nat), b ≠ [] →
    (renderFrom b k).getLast? = some '\n' := by
  intro b
  induction b with
  | nil => intro k h; exact absurd rfl h
  | cons c t ih =>
    intro k _
    rw [renderFrom, List.getLast?_append]
    cases t with
    | nil => simp [renderFrom]
    | cons d u =>
      have h1 := ih 1 (by simp)
      have h2 := ih (k + 1) (by simp)
      by_cases hk : k = 16
      · simp only [hk, true_or, if_true]
        rw [List.getLast?_cons, h1]
        rfl
      · simp only [hk, List.isEmpty_cons, Bool.false_eq_true, or_self, if_false, h2]
        rfl

/-- Past `INT_MAX` requested bytes the test `j == len` is never true: the dump of
exactly the bytes there are does not end with a line break unless the last
row is full. -/
theorem read_data_loop_getLast (len : Int) (hlen : 2147483647 < len) (h16 : len % 16 ≠ 0) :
    ∀ (b : List Nat) (i : Nat), b ≠ [] → (i : Int) + b.length = len →
      ∃ ch, (read_data_loop len b i).getLast? = some ch ∧ ch ≠ '\n' := by
  intro b
  induction b with
  | nil => intro i h; exact absurd rfl h
  | cons c t ih =>
    intro i _ h
    simp only [List.length_cons, Nat.cast_add, Nat.cast_one] at h
    rw [read_data_loop_cons len c t i (by omega)]
    have hl : ¬ ((i : Int) + 1 = len ∧ len ≤ 2147483647) := by omega
    cases t with
    | nil =>
      have hi : (i : Int) + 1 = len := by simpa using h
      have hn : ¬ (i + 1) % 16 = 0 := by omega
      rw [read_data_loop_done len [] (i + 1) (by push_cast; omega)]
      by_cases hs : (i + 1) % 4 = 0 ∧ (i + 1) % 16 ≠ 0
      · exact ⟨' ', by simp [hl, hn, hs, format02X], by decide⟩
      · have h4 : ¬ (i + 1) % 4 = 0 := by omega
        exact ⟨hexUpper (c % 256 % 16), by simp [hl, hn, h4, format02X],
          hexUpper_ne_newline c⟩
    | cons d u =>
      obtain ⟨ch, hch, hne⟩ := ih (i + 1) (by simp) (by
        simp only [List.length_cons, Nat.cast_add, Nat.cast_one] at h ⊢
        omega)
      exact ⟨ch, by rw [List.getLast?_append, hch]; rfl, hne⟩

/-- Past `INT_MAX` bytes, with a last row that is not full, the dump of exactly
the bytes there are differs from the text of the row-by-row renderer, which
ends with a line break. -/
theorem read_data_loop_ne_renderRows (b : List Nat) (len : Int) (hb : (b.length : Int) = len)
    (hlen : 2147483647 < len) (h16 : len % 16 ≠ 0) :
    (renderRows b).getLast? = some '\n' ∧
    (read_data_loop len b 0).getLast? ≠ some '\n' ∧
    read_data_loop len b 0 ≠ renderRows b := by
  have hne : b ≠ [] := by
    rintro rfl
    simp only [List.length_nil, Nat.cast_zero] at hb
    omega
  have h1 : (renderRows b).getLast? = some '\n' := by
    rw [renderRows_eq_renderFrom]
    exact renderFrom_getLast _ 1 hne
  obtain ⟨ch, hch, hn⟩ := read_data_loop_getLast len hlen h16 b 0 hne (by
    rw [Nat.cast_zero, zero_add]; exact hb)
  have h2 : (read_data_loop len b 0).getLast? ≠ some '\n' := by
    rw [hch]
    intro h
    exact hn (Option.some.inj h)
  refine ⟨h1, h2, fun h => ?_⟩
  rw [h] at h2
  exact h2 h1

/-- Claim C17: a dump of 2147483649 bytes, one more than `INT_MAX + 1`, with the
requested length 2147483649 is not the text of the row-by-row renderer. The
renderer ends its last row with a line break; the loop compares the `int j`
with the `long len`, never finds them equal and prints none. -/
theorem read_data_loop_int_overflow :
    (renderRows (List.replicate 2147483649 0)).getLast? = some '\n' ∧
    (read_data_loop 2147483649 (List.replicate 2147483649 0) 0).getLast? ≠ some '\n' ∧
    read_data_loop 2147483649 (List.replicate 2147483649 0) 0 ≠
      renderRows (List.replicate 2147483649 0) :=
  read_data_loop_ne_renderRows (List.replicate 2147483649 0) 2147483649
    (by rw [List.length_replicate]; rfl) (by decide) (by decide)

/-! ### The end of the file before the requested length -/

/-- The dump loop asked for more bytes than there are prints the formatted bytes,
with the row line breaks, and one line break at the end of the file. -/
theorem read_data_loop_exhausted (len : Int) :
    ∀ (b : List Nat) (i : Nat), (i : Int) + b.length < len →
      read_data_loop len b i = formatBytes b (i % 16 + 1) ++ ['\n'] := by
  intro b
  induction b with
  | nil =>
    intro i h
    simp only [List.length_nil, Nat.cast_zero, add_zero] at h
    simp [read_data_loop, formatBytes, h]
  | cons c t ih =>
    intro i h
    simp only [List.length_cons, Nat.cast_add, Nat.cast_one] at h
    rw [read_data_loop_cons len c t i (by omega), formatBytes]
    have hk : (i % 16 + 1 = 4 ∨ i % 16 + 1 = 8 ∨ i % 16 + 1 = 12) ↔
        ((i + 1) % 4 = 0 ∧ (i + 1) % 16 ≠ 0) := by omega
    have hl : ¬ ((i : Int) + 1 = len ∧ len ≤ 2147483647) := by omega
    have hrest : (if ((i : Int) + 1 = len ∧ len ≤ 2147483647) ∨ (i + 1) % 16 = 0
          then ['\n'] else []) ++ read_data_loop len t (i + 1) =
        (if i % 16 + 1 = 16 then '\n' :: formatBytes t 1
          else formatBytes t (i % 16 + 1 + 1)) ++ ['\n'] := by
      rw [ih (i + 1) (by push_cast; omega)]
      by_cases h16 : (i + 1) % 16 = 0
      · have e1 : i % 16 + 1 = 16 := by omega
        have e2 : (i + 1) % 16 + 1 = 1 := by omega
        simp [h16, e1, e2]
      · have e1 : ¬ i % 16 + 1 = 16 := by omega
        have e2 : (i + 1) % 16 + 1 = i % 16 + 1 + 1 := by omega
        simp [h16, e1, e2, hl]
    simp only [hk]
    rw [List.append_assoc _ _ (read_data_loop len t (i + 1)), hrest]
    simp only [List.append_assoc, List.cons_append]

/-- The renderer that tracks the column is the formatted bytes and, unless the
last row is full, a line break. -/
theorem renderFrom_eq_formatBytes : ∀ (b : List Nat) (k : Nat), 1 ≤ k → k ≤ 16 →
    renderFrom b k =
      formatBytes b k ++ (if b = [] ∨ (k - 1 + b.length) % 16 = 0 then [] else ['\n']) := by
  intro b
  induction b with
  | nil => intro k _ _; simp [renderFrom, formatBytes]
  | cons c t ih =>
    intro k h1 h16
    rw [renderFrom, formatBytes]
    have hrest : (if k = 16 ∨ t.isEmpty = true then '\n' :: renderFrom t 1
          else renderFrom t (k + 1)) =
        (if k = 16 then '\n' :: formatBytes t 1 else formatBytes t (k + 1)) ++
          (if (k - 1 + (t.length + 1)) % 16 = 0 then [] else ['\n']) := by
      by_cases hk : k = 16
      · subst hk
        rw [ih 1 (le_refl _) (by decide)]
        cases t with
        | nil => simp [formatBytes]
        | cons d u =>
          simp only [List.length_cons, true_or, if_true, List.cons_ne_nil, false_or,
            List.cons_append]
          split_ifs <;> first | rfl | omega
      · cases t with
        | nil =>
          simp only [hk, List.isEmpty_nil, or_true, if_true, if_false, renderFrom, formatBytes,
            List.length_nil, List.nil_append]
          split_ifs <;> first | rfl | omega
        | cons d u =>
          rw [ih (k + 1) (by omega) (by omega)]
          simp only [hk, List.isEmpty_cons, Bool.false_eq_true, or_self, if_false,
            List.length_cons, List.cons_ne_nil, false_or]
          split_ifs <;> first | rfl | omega
    rw [hrest]
    simp only [List.length_cons, List.cons_ne_nil, false_or, List.append_assoc,
      List.cons_append]

/-- For at most `INT_MAX` bytes: the dump loop asked for more than the `m` bytes
there are prints the dump of exactly `m` bytes when `m` is not a multiple of
16, that dump and one more line break when `m` is a positive multiple of 16,
and one line break when there is no byte. -/
theorem read_data_loop_exhausted_vs_exact (b : List Nat) (len : Int)
    (hm : b.length ≤ 2147483647) (h : (b.length : Int) < len) :
    (b.length % 16 ≠ 0 → read_data_loop len b 0 = read_data_loop b.length b 0) ∧
    (b.length % 16 = 0 → b ≠ [] →
      read_data_loop len b 0 = read_data_loop b.length b 0 ++ ['\n']) ∧
    (b = [] → read_data_loop len b 0 = ['\n']) := by
  have hx := read_data_loop_exhausted len b 0 (by simpa using h)
  have he := read_data_loop_eq_renderFrom b.length (by omega) b 0 (by simp)
  rw [renderFrom_eq_formatBytes b 1 (le_refl _) (by decide)] at he
  simp only [Nat.zero_mod, zero_add, Nat.sub_self] at hx he
  refine ⟨fun h16 => ?_, fun h16 hne => ?_, fun h0 => ?_⟩
  · have hne : b ≠ [] := by rintro rfl; simp at h16
    rw [hx, he]
    simp [hne, h16]
  · rw [hx, he]
    simp [hne, h16]
  · subst h0
    simpa [formatBytes] using hx

/-- Claim C18: with 2147483649 bytes, not a multiple of 16, the dump asked for one
byte more ends with the line break of the end of the file, while the dump of
exactly 2147483649 bytes ends without one: the two are not identical. The
cause is the `int j` of claim C17; the end-of-file path itself prints the
formatted bytes and one line break for every number of bytes. -/
theorem read_data_loop_exhausted_int_overflow :
    read_data_loop 2147483650 (List.replicate 2147483649 0) 0 =
      formatBytes (List.replicate 2147483649 0) 1 ++ ['\n'] ∧
    read_data_loop 2147483650 (List.replicate 2147483649 0) 0 ≠
      read_data_loop 2147483649 (List.replicate 2147483649 0) 0 := by
  have hx := read_data_loop_exhausted 2147483650 (List.replicate 2147483649 0) 0
    (by rw [List.length_replicate]; decide)
  have hy := (read_data_loop_ne_renderRows (List.replicate 2147483649 0) 2147483649
    (by rw [List.length_replicate]; rfl) (by decide) (by decide)).2.1
  refine ⟨hx, fun h => hy ?_⟩
  rw [← h, hx, List.getLast?_concat]

/-! ### The offset and the length of `read_data` -/

/-- A character that `tolower` maps to `a` is neither white space, nor a sign, nor
a decimal digit, nor the first character of a hexadecimal or octal prefix. -/
theorem of_tolower_eq_a {c : Char} (h : tolower c = 'a') :
    isspace c = false ∧ isDigitOf 10 c = false ∧ c ≠ '-' ∧ c ≠ '+' ∧ c ≠ '0' ∧ c ≠ '\\' := by
  unfold tolower at h
  split_ifs at h with hr
  · have hd : digitValue c = some (c.toNat - 55) := by
      unfold digitValue
      rw [if_neg (by omega), if_neg (by omega), if_pos hr]
    refine ⟨?_, ?_, ?_, ?_, ?_, ?_⟩
    · cases hs : isspace c with
      | false => rfl
      | true => rw [digitValue_of_isspace hs] at hd; cases hd
    · simp only [isDigitOf, hd, decide_eq_false_iff_not]
      omega
    · rintro rfl; exact absurd hr (by decide)
    · rintro rfl; exact absurd hr (by decide)
    · rintro rfl; exact absurd hr (by decide)
    · rintro rfl; exact absurd hr (by decide)
  · subst h
    decide

/-- The offset `append`, in any letter case, is no number for `get_long`. -/
theorem get_long_of_append {a : List Char} (h : strcasecmp_eq a "append".toList = true) :
    ∃ c, get_long a = .error (.invalidCharacters c) := by
  have hm : a.map tolower = "append".toList := by
    have := eq_of_beq h
    rw [this]
    decide
  match a, hm with
  | [], hm => exact absurd hm (by decide)
  | c :: t, hm =>
    have hc : tolower c = 'a' := by
      have := congrArg List.head? hm
      simpa using this
    obtain ⟨hs, hd, h1, h2, h3, h4⟩ := of_tolower_eq_a hc
    have hpre : hexPrefixed (c :: t) = false := by
      simp [hexPrefixed, charAt, h3, h4]
    have hoct : (decide ((c :: t).length > 1) && charAt (c :: t) 0 == '0') = false := by
      simp [charAt, h3]
    have hsign : strtolSign (c :: t) = (false, c :: t) := by
      unfold strtolSign
      split <;> simp_all
    refine ⟨c, ?_⟩
    unfold get_long
    rw [hpre, hoct]
    simp only [Bool.false_eq_true, if_false]
    unfold xstrtol strtol
    have hdrop : (c :: t).dropWhile isspace = c :: t := by simp [List.dropWhile, hs]
    rw [hdrop, hsign]
    simp [strtolPrefix, strtolConvert, List.takeWhile, hd]

/-- Every read of an empty file fails, whatever the offset and the length are: a
number that is not read fails in `get_long`, a negative offset in `fseek`,
every other offset in the test against the size of the file. -/
theorem read_data_empty_file (arg_offset arg_length : List Char) :
    ∃ e, read_data arg_offset arg_length [] = .error e := by
  unfold read_data
  by_cases h : strcasecmp_eq arg_offset "append".toList = true
  · rw [h]
    exact ⟨.offsetExceedsFilesize, by simp⟩
  · simp only [Bool.not_eq_true] at h
    rw [h]
    cases hg : get_long arg_offset with
    | error e => exact ⟨e, by simp⟩
    | ok o =>
      by_cases ho : (0 : Int) ≤ o
      · exact ⟨.offsetExceedsFilesize, by simp [ho]⟩
      · exact ⟨.fseekFailed, by simp [ho, not_le.1 ho]⟩

/-- Claim C12: `read_data` rejects an offset that resolves to the size of the file
or more, a number or `append` in any letter case, with the failure `offset
equals or exceeds filesize` and without any output; and every read of an
empty file fails, whatever its offset and length are, the one with offset
`0` with that same failure. -/
theorem read_data_offset_out_of_range (arg_offset arg_length : List Char) (file : List Nat) :
    (∀ o : Int, get_long arg_offset = .ok o → (file.length : Int) ≤ o →
      read_data arg_offset arg_length file = .error .offsetExceedsFilesize) ∧
    (strcasecmp_eq arg_offset "append".toList = true →
      read_data arg_offset arg_length file = .error .offsetExceedsFilesize) ∧
    read_data "0".toList arg_length [] = .error .offsetExceedsFilesize ∧
    (∃ e, read_data arg_offset arg_length [] = .error e) ∧
    (∀ o : Int, get_long arg_offset = .ok o → 0 ≤ o →
      read_data arg_offset arg_length [] = .error .offsetExceedsFilesize) := by
  have happ : ∀ f : List Nat, strcasecmp_eq arg_offset "append".toList = true →
      read_data arg_offset arg_length f = .error .offsetExceedsFilesize := by
    intro f h
    unfold read_data
    rw [h]
    simp
  have hnum : ∀ (f : List Nat) (o : Int), get_long arg_offset = .ok o → (f.length : Int) ≤ o →
      read_data arg_offset arg_length f = .error .offsetExceedsFilesize := by
    intro f o ho hle
    by_cases h : strcasecmp_eq arg_offset "append".toList = true
    · exact happ f h
    · simp only [Bool.not_eq_true] at h
      unfold read_data
      rw [h, ho]
      simp [hle]
  refine ⟨hnum file, happ file, ?_, read_data_empty_file arg_offset arg_length,
    fun o ho h0 => hnum [] o ho (by simpa using h0)⟩
  have h0 : get_long "0".toList = .ok 0 := by decide
  have hs : strcasecmp_eq "0".toList "append".toList = false := by decide
  unfold read_data
  rw [hs, h0]
  simp

/-- Claim C12 at the offsets `3`, `0x10` and `APPEND` on a file of 3 bytes, and at
the offsets `0`, `7`, `-1` and `x` on an empty file. -/
theorem read_data_offset_out_of_range_witness :
    read_data "3".toList "1".toList [1, 2, 3] = .error .offsetExceedsFilesize ∧
    read_data "0x10".toList "all".toList [1, 2, 3] = .error .offsetExceedsFilesize ∧
    read_data "APPEND".toList "1".toList [1, 2, 3] = .error .offsetExceedsFilesize ∧
    read_data "0".toList "all".toList [] = .error .offsetExceedsFilesize ∧
    read_data "7".toList "all".toList [] = .error .offsetExceedsFilesize ∧
    (∃ e, read_data "-1".toList "all".toList [] = .error e) ∧
    (∃ e, read_data "x".toList "1".toList [] = .error e) :=
  ⟨(read_data_offset_out_of_range "3".toList "1".toList [1, 2, 3]).1 3 (by decide) (by decide),
   (read_data_offset_out_of_range "0x10".toList "all".toList [1, 2, 3]).1 16 (by decide)
      (by decide),
   (read_data_offset_out_of_range "APPEND".toList "1".toList [1, 2, 3]).2.1 (by decide),
   (read_data_offset_out_of_range "0".toList "all".toList []).2.2.1,
   (read_data_offset_out_of_range "7".toList "all".toList []).2.2.2.2 7 (by decide) (by decide),
   (read_data_offset_out_of_range "-1".toList "all".toList []).2.2.2.1,
   (read_data_offset_out_of_range "x".toList "1".toList []).2.2.2.1⟩

/-- Claim C13: in `read_data` the lengths `all`, in any letter case, `0` and every
number below 1 mean the same. For an offset `o` with `0 ≤ o < n` in a file of
`n` bytes each resolves to the length `n - o`, the number of bytes from `o`
to the end of the file, and the output is the dump loop run with that length
on exactly those bytes. -/
theorem read_data_all (arg_offset arg_length : List Char) (file : List Nat) (o : Int)
    (ho : get_long arg_offset = .ok o) (h0 : 0 ≤ o) (hn : o < file.length)
    (hl : strcasecmp_eq arg_length "all".toList = true ∨
      ∃ l : Int, get_long arg_length = .ok l ∧ l < 1) :
    read_data arg_offset arg_length file =
      .ok (read_data_loop ((file.length : Int) - o) (file.drop o.toNat) 0) ∧
    ((file.drop o.toNat).length : Int) = (file.length : Int) - o := by
  have happ : strcasecmp_eq arg_offset "append".toList = false := by
    cases h : strcasecmp_eq arg_offset "append".toList with
    | false => rfl
    | true =>
      obtain ⟨c, hc⟩ := get_long_of_append h
      rw [hc] at ho
      cases ho
  refine ⟨?_, by rw [List.length_drop]; omega⟩
  have h1 : ¬ (file.length : Int) ≤ o := by omega
  have h2 : ¬ o < 0 := by omega
  by_cases hall : strcasecmp_eq arg_length "all".toList = true
  · unfold read_data
    rw [happ, ho, hall]
    simp [h1, h2]
  · simp only [Bool.not_eq_true] at hall
    rcases hl with hl | ⟨l, hl, hl1⟩
    · rw [hl] at hall; cases hall
    · unfold read_data
      rw [happ, ho, hall, hl]
      simp [h1, h2, hl1]

/-- Claim C13 on a file of 3 bytes read from the offset 1 with the lengths `ALL`,
`0` and `-4`. -/
theorem read_data_all_witness :
    read_data "1".toList "ALL".toList [1, 2, 3] = .ok " 02 03\n".toList ∧
    read_data "1".toList "0".toList [1, 2, 3] = .ok " 02 03\n".toList ∧
    read_data "1".toList "-4".toList [1, 2, 3] = .ok " 02 03\n".toList :=
  ⟨(read_data_all "1".toList "ALL".toList [1, 2, 3] 1 (by decide) (by decide) (by decide)
      (Or.inl (by decide))).1,
   (read_data_all "1".toList "0".toList [1, 2, 3] 1 (by decide) (by decide) (by decide)
      (Or.inr ⟨0, by decide, by decide⟩)).1,
   (read_data_all "1".toList "-4".toList [1, 2, 3] 1 (by decide) (by decide) (by decide)
      (Or.inr ⟨-4, by decide, by decide⟩)).1⟩

/-! ### The fill of `memset_write_data` on the file -/

theorem fileWrite_of_le {file : List Nat} {pos : Nat} (h : pos ≤ file.length)
    (bytes : List Nat) :
    fileWrite file pos bytes = file.take pos ++ bytes ++ file.drop (pos + bytes.length) := by
  cases bytes with
  | nil => simp [fileWrite]
  | cons b t => simp [fileWrite, Nat.sub_eq_zero_of_le h]

/-- The loop that writes one byte per iteration fills the range behind the offset. -/
theorem write_byte_loop_eq (c : Nat) : ∀ (n : Nat) (file : List Nat) (pos : Nat),
    pos ≤ file.length →
      write_byte_loop c n file pos =
        file.take pos ++ List.replicate n c ++ file.drop (pos + n) := by
  intro n
  induction n with
  | zero => intro file pos _; simp [write_byte_loop]
  | succ n ih =>
    intro file pos h
    rw [write_byte_loop, fileWrite_of_le h]
    have hlen : (file.take pos).length = pos := by rw [List.length_take]; omega
    have h1 : pos + 1 ≤ (file.take pos ++ [c] ++ file.drop (pos + [c].length)).length := by
      simp only [List.length_append, hlen, List.length_singleton]; omega
    rw [ih _ (pos + 1) h1]
    have e1 : (file.take pos ++ [c] ++ file.drop (pos + [c].length)).take (pos + 1) =
        file.take pos ++ [c] := by
      rw [List.take_append_of_le_length (by simp [hlen])]
      rw [List.take_of_length_le (by simp [hlen])]
    have e2 : (file.take pos ++ [c] ++ file.drop (pos + [c].length)).drop (pos + 1 + n) =
        file.drop (pos + (n + 1)) := by
      have hl : (file.take pos ++ [c]).length = pos + 1 := by simp [hlen]
      rw [show pos + 1 + n = (file.take pos ++ [c]).length + n by rw [hl],
        List.drop_append, List.drop_drop]
      congr 1
      simp only [List.length_singleton]
      omega
    rw [e1, e2, List.replicate_succ]
    simp

/-- A filled range leaves the bytes in front of it and the bytes behind it as they
were. -/
theorem fill_frame (file : List Nat) (o n c : Nat) (h : o ≤ file.length) :
    (file.take o ++ List.replicate n c ++ file.drop (o + n)).length = max file.length (o + n) ∧
    (∀ i, i < o → (file.take o ++ List.replicate n c ++ file.drop (o + n))[i]? = file[i]?) ∧
    (∀ i, o ≤ i → i < o + n →
      (file.take o ++ List.replicate n c ++ file.drop (o + n))[i]? = some c) ∧
    (∀ i, o + n ≤ i →
      (file.take o ++ List.replicate n c ++ file.drop (o + n))[i]? = file[i]?) := by
  have hlen : (file.take o).length = o := by rw [List.length_take]; omega
  refine ⟨?_, ?_, ?_, ?_⟩
  · simp only [List.length_append, hlen, List.length_replicate, List.length_drop]
    omega
  · intro i hi
    rw [List.append_assoc, List.getElem?_append_left (by omega), List.getElem?_take_of_lt hi]
  · intro i h1 h2
    rw [List.append_assoc, List.getElem?_append_right (by omega), hlen,
      List.getElem?_append_left (by simp; omega), List.getElem?_replicate]
    simp
    omega
  · intro i hi
    rw [List.getElem?_append_right (by simp [hlen]; omega)]
    simp only [List.length_append, hlen, List.length_replicate, List.getElem?_drop]
    congr 1
    omega

/-- Unless the offset, converted to `int`, is -1: the fill with a numeric offset
`o` inside the file or at its end, a length `n` of 1 or more and a char that
resolves to `c` leaves a file with `c` at the positions `o` to `o + n - 1`,
the other bytes of the old file as they were, and the size
`max(|F|, o + n)`. -/
theorem memset_write_data_file_frame (arg_offset arg_length arg_char : List Char)
    (file : List Nat) (o n : Int) (c : Nat)
    (ho : get_long arg_offset = .ok o) (h0 : 0 ≤ o) (hof : o ≤ file.length)
    (hsk : toInt o ≠ -1)
    (hn : get_long arg_length = .ok n) (h1 : 1 ≤ n) (hc : memset_char arg_char = .ok c) :
    ∃ out, memset_write_data_file arg_offset arg_length arg_char file = .ok out ∧
      out.length = max file.length (o.toNat + n.toNat) ∧
      (∀ i, i < o.toNat → out[i]? = file[i]?) ∧
      (∀ i, o.toNat ≤ i → i < o.toNat + n.toNat → out[i]? = some c) ∧
      (∀ i, o.toNat + n.toNat ≤ i → out[i]? = file[i]?) := by
  have happ : strcasecmp_eq arg_offset "append".toList = false := by
    cases h : strcasecmp_eq arg_offset "append".toList with
    | false => rfl
    | true =>
      obtain ⟨d, hd⟩ := get_long_of_append h
      rw [hd] at ho
      cases ho
  have hle : o.toNat ≤ file.length := by omega
  have hm : memset_write_data arg_length arg_char = .ok (c, n) := by
    unfold memset_write_data
    rw [hn]
    simp only [not_lt.2 h1, if_false, hc]
  have hseek : write_to_file_seek file arg_offset = .ok o := by
    unfold write_to_file_seek
    rw [happ, ho]
    simp [lseek_set, not_lt.2 h0]
  have hw : memset_write_data_file arg_offset arg_length arg_char file =
      .ok (write_byte_loop c n.toNat file o.toNat) := by
    unfold memset_write_data_file
    rw [hm]
    simp only [write_to_file, hseek, hsk]
    simp
  refine ⟨_, hw, ?_⟩
  rw [write_byte_loop_eq c n.toNat file o.toNat hle]
  exact fill_frame file o.toNat n.toNat c hle

/-- Claim C14: on a file of 4294967295 bytes the fill at the offset 4294967295, the
end of the file, with the length 3 and the char `0x41` writes nothing and
fails. The seek succeeds, but its result is kept in `int sk`, where it is
-1, and is taken for the failure of `lseek`. -/
theorem memset_write_data_file_int_overflow :
    ((4294967295 : Int) ≤ (List.replicate 4294967295 0).length) ∧
    get_long "4294967295".toList = .ok 4294967295 ∧
    memset_char "0x41".toList = .ok 0x41 ∧
    memset_write_data_file "4294967295".toList "3".toList "0x41".toList
      (List.replicate 4294967295 0) = .error .lseekFailed := by
  refine ⟨by rw [List.length_replicate]; decide, by decide, by decide, ?_⟩
  have hm : memset_write_data "3".toList "0x41".toList = .ok (0x41, 3) := by decide
  have hseek : ∀ file : List Nat,
      write_to_file_seek file "4294967295".toList = .ok 4294967295 := by
    intro file
    unfold write_to_file_seek
    rw [show strcasecmp_eq "4294967295".toList "append".toList = false by decide,
      show get_long "4294967295".toList = .ok 4294967295 by decide]
    rfl
  unfold memset_write_data_file
  rw [hm]
  simp only [write_to_file, hseek]
  rw [if_neg (by decide), if_pos (by decide)]

/-! ### The range of `get_long` -/

/-- A non-empty digit sequence whose value does not fit a `long` sets `errno`. -/
theorem xstrtol_overflow {base : Nat} {s : List Char} (hne : s ≠ [])
    (h : ∀ c ∈ s, isDigitOf base c = true) (hbig : LONG_MAX < (digitsValue base s : Int)) :
    xstrtol s base = .error .strtolErrno := by
  obtain ⟨c, t, rfl⟩ := List.exists_cons_of_ne_nil hne
  have hc := h c (by simp)
  unfold xstrtol strtol
  rw [dropWhile_isspace_of_digit hc, strtolSign_of_digit hc]
  simp only [strtolPrefix_of_digits h, strtolConvert_of_digits _ _ hne h]
  simp [hbig]

theorem xstrtol_hex_overflow {x : Char} (hx : x = 'x' ∨ x = 'X') {h : List Char} (hne : h ≠ [])
    (hall : ∀ c ∈ h, isDigitOf 16 c = true) (hbig : LONG_MAX < (digitsValue 16 h : Int)) :
    xstrtol ('0' :: x :: h) 16 = .error .strtolErrno := by
  obtain ⟨d, t, rfl⟩ := List.exists_cons_of_ne_nil hne
  have hd := hall d (by simp)
  have hxx : (x == 'x' || x == 'X') = true := by
    rcases hx with rfl | rfl <;> decide
  unfold xstrtol strtol
  have h0 : ('0' :: x :: d :: t).dropWhile isspace = '0' :: x :: d :: t := by
    simp [List.dropWhile, show isspace '0' = false by decide]
  have h1 : strtolSign ('0' :: x :: d :: t) = (false, '0' :: x :: d :: t) :=
    strtolSign_of_digit (show isDigitOf 16 '0' = true by decide)
  have h2 : strtolPrefix 16 ('0' :: x :: d :: t) = d :: t := by
    simp [strtolPrefix, hxx, hd]
  rw [h0, h1]
  simp only [h2, strtolConvert_of_digits _ _ hne hall]
  simp [hbig]

theorem xstrtol_negative_overflow {d : List Char} (hne : d ≠ [])
    (hall : ∀ c ∈ d, isDigitOf 10 c = true) (hbig : -(digitsValue 10 d : Int) < LONG_MIN) :
    xstrtol ('-' :: d) 10 = .error .strtolErrno := by
  unfold xstrtol strtol
  have hdrop : ('-' :: d).dropWhile isspace = '-' :: d := by
    simp [List.dropWhile, show isspace '-' = false by decide]
  rw [hdrop]
  simp only [strtolSign, strtolPrefix_of_digits hall, strtolConvert_of_digits _ _ hne hall]
  simp [hbig]

/-- What `xstrtol` returns is the integer its digits denote. -/
theorem xstrtol_exact {str : List Char} {base : Nat} {v : Int} (h : xstrtol str base = .ok v) :
    (∀ c ∈ strtolPrefix base (strtolSign (str.dropWhile isspace)).2, isDigitOf base c = true) ∧
    v = if (strtolSign (str.dropWhile isspace)).1
      then -(digitsValue base (strtolPrefix base (strtolSign (str.dropWhile isspace)).2) : Int)
      else (digitsValue base (strtolPrefix base (strtolSign (str.dropWhile isspace)).2) : Int) := by
  by_cases hstr : str = []
  · subst hstr
    have hv : v = 0 := by
      have : xstrtol [] base = .ok 0 := by
        simp [xstrtol, strtol, strtolSign, strtolPrefix, strtolConvert]
      rw [this] at h
      exact (Except.ok.inj h).symm
    subst hv
    have hp : strtolPrefix base [] = [] := by unfold strtolPrefix; split <;> rfl
    simp [strtolSign, hp, digitsValue]
  · unfold xstrtol strtol at h
    dsimp only at h
    generalize (strtolSign (str.dropWhile isspace)).1 = neg at h ⊢
    generalize strtolPrefix base (strtolSign (str.dropWhile isspace)).2 = ds at h ⊢
    by_cases hgood : ds ≠ [] ∧ ∀ c ∈ ds, isDigitOf base c = true
    · rw [strtolConvert_of_digits str neg hgood.1 hgood.2] at h
      refine ⟨hgood.2, ?_⟩
      cases neg
      · by_cases hb : LONG_MAX < (digitsValue base ds : Int)
        · simp [hb] at h
        · simp only [Bool.false_eq_true, if_false, if_neg hb] at h
          simpa using (Except.ok.inj h).symm
      · by_cases hb : -(digitsValue base ds : Int) < LONG_MIN
        · simp [hb] at h
        · simp only [if_true, if_neg hb, Bool.false_eq_true, if_false] at h
          simpa using (Except.ok.inj h).symm
    · have hend := strtolConvert_endptr_ne_nil neg hstr hgood
      generalize strtolConvert str neg ds base = r at h hend
      obtain ⟨w, e, er⟩ := r
      cases er <;> cases e <;> simp_all

theorem selected_hex {p x : Char} (hp : p = '0' ∨ p = '\\') (hx : x = 'x' ∨ x = 'X')
    {h : List Char} (hne : h ≠ []) :
    get_long (p :: x :: h) = xstrtol ('0' :: x :: h) 16 := by
  obtain ⟨d, t, rfl⟩ := List.exists_cons_of_ne_nil hne
  have hpre : hexPrefixed (p :: x :: d :: t) = true := by
    rcases hp with rfl | rfl <;> rcases hx with rfl | rfl <;> simp [hexPrefixed, charAt]
  unfold get_long
  rw [if_pos hpre]
  rfl

theorem selected_octal {o : List Char} (hne : o ≠ []) (hall : ∀ c ∈ o, isDigitOf 8 c = true) :
    get_long ('0' :: o) = xstrtol ('0' :: o) 8 := by
  obtain ⟨d, t, rfl⟩ := List.exists_cons_of_ne_nil hne
  have hd := hall d (by simp)
  have hdx : ¬ (d = 'x' ∨ d = 'X') := by
    intro hx
    have := not_isDigitOf_16_x hx
    rw [isDigitOf_mono (by decide : 8 ≤ 16) hd] at this
    cases this
  have hpre : hexPrefixed ('0' :: d :: t) = false := by
    simp only [not_or] at hdx
    simp [hexPrefixed, charAt, hdx.1, hdx.2]
  unfold get_long
  rw [hpre]
  simp only [Bool.false_eq_true, if_false]
  rw [if_pos (by simp [charAt])]

theorem selected_decimal {d : List Char} (hne : d ≠ [])
    (hall : ∀ c ∈ d, isDigitOf 10 c = true) (h0 : d = ['0'] ∨ d.head? ≠ some '0') :
    get_long d = xstrtol d 10 := by
  have hpre : hexPrefixed d = false := by
    rcases h0 with rfl | h0
    · decide
    · obtain ⟨c, t, rfl⟩ := List.exists_cons_of_ne_nil hne
      have hc := hall c (by simp)
      have h1 : c ≠ '0' := by simpa using h0
      have h2 : c ≠ '\\' := by
        rintro rfl
        rw [isDigitOf_eq_false_of_none (by decide)] at hc
        cases hc
      simp [hexPrefixed, charAt, h1, h2]
  have hoct : (decide (d.length > 1) && charAt d 0 == '0') = false := by
    rcases h0 with rfl | h0
    · decide
    · obtain ⟨c, t, rfl⟩ := List.exists_cons_of_ne_nil hne
      have h1 : c ≠ '0' := by simpa using h0
      simp [charAt, h1]
  unfold get_long
  rw [hpre, hoct]
  simp only [Bool.false_eq_true, if_false]

theorem selected_negative (d : List Char) : get_long ('-' :: d) = xstrtol ('-' :: d) 10 := by
  have hpre : hexPrefixed ('-' :: d) = false := by simp [hexPrefixed, charAt]
  have hoct : (decide (('-' :: d).length > 1) && charAt ('-' :: d) 0 == '0') = false := by
    simp [charAt]
  unfold get_long
  rw [hpre, hoct]
  simp only [Bool.false_eq_true, if_false]

/-- Claim C15: `get_long` never returns a wrapped or clamped value. Digits whose
value lies outside the range of a `long`, in hexadecimal, octal or decimal
notation, the last also behind a minus sign, end in the `errno` failure of
the conversion; and a value that is returned is exactly the integer that
the sign and the digits of the argument denote, within the range. -/
theorem get_long_no_wrap :
    (∀ (p x : Char) (h : List Char), (p = '0' ∨ p = '\\') → (x = 'x' ∨ x = 'X') → h ≠ [] →
      (∀ c ∈ h, isxdigit c = true) → LONG_MAX < (digitsValue 16 h : Int) →
        get_long (p :: x :: h) = .error .strtolErrno) ∧
    (∀ o : List Char, o ≠ [] → (∀ c ∈ o, isDigitOf 8 c = true) →
      LONG_MAX < (digitsValue 8 o : Int) → get_long ('0' :: o) = .error .strtolErrno) ∧
    (∀ d : List Char, d ≠ [] → (∀ c ∈ d, isDigitOf 10 c = true) →
      (d = ['0'] ∨ d.head? ≠ some '0') → LONG_MAX < (digitsValue 10 d : Int) →
        get_long d = .error .strtolErrno) ∧
    (∀ d : List Char, d ≠ [] → (∀ c ∈ d, isDigitOf 10 c = true) →
      -(digitsValue 10 d : Int) < LONG_MIN → get_long ('-' :: d) = .error .strtolErrno) ∧
    (∀ (str : List Char) (v : Int), get_long str = .ok v →
      (∀ c ∈ (numberDigits str).2, isDigitOf (selectedBase str) c = true) ∧
      (v = if (numberDigits str).1
        then -(digitsValue (selectedBase str) (numberDigits str).2 : Int)
        else (digitsValue (selectedBase str) (numberDigits str).2 : Int)) ∧
      LONG_MIN ≤ v ∧ v ≤ LONG_MAX) := by
  refine ⟨?_, ?_, ?_, ?_, ?_⟩
  · intro p x h hp hx hne hall hbig
    rw [selected_hex hp hx hne]
    exact xstrtol_hex_overflow hx hne hall hbig
  · intro o hne hall hbig
    rw [selected_octal hne hall]
    have hall0 : ∀ c ∈ '0' :: o, isDigitOf 8 c = true := by
      intro c hc
      rcases List.mem_cons.1 hc with rfl | hc
      · decide
      · exact hall c hc
    exact xstrtol_overflow (by simp) hall0 (by rw [digitsValue_cons_zero]; exact hbig)
  · intro d hne hall h0 hbig
    rw [selected_decimal hne hall h0]
    exact xstrtol_overflow hne hall hbig
  · intro d hne hall hbig
    rw [selected_negative]
    exact xstrtol_negative_overflow hne hall hbig
  · intro str v h
    have hr := get_long_range h
    rw [get_long_eq_selected] at h
    have := xstrtol_exact h
    exact ⟨this.1, this.2, hr.1, hr.2⟩

/-- Claim C15 at `9223372036854775808`, `0x10000000000000000`,
`-9223372036854775809` and `01000000000000000000000`, which fail, and at
`-0x7f`, read as decimal, and `0x7f`, which are returned exactly. -/
theorem get_long_no_wrap_witness :
    get_long "9223372036854775808".toList = .error .strtolErrno ∧
    get_long "0x10000000000000000".toList = .error .strtolErrno ∧
    get_long "-9223372036854775809".toList = .error .strtolErrno ∧
    get_long "01000000000000000000000".toList = .error .strtolErrno ∧
    (get_long "0x7f".toList = .ok 127 ∧ (127 : Int) = if (numberDigits "0x7f".toList).1
      then -(digitsValue (selectedBase "0x7f".toList) (numberDigits "0x7f".toList).2 : Int)
      else (digitsValue (selectedBase "0x7f".toList) (numberDigits "0x7f".toList).2 : Int)) :=
  ⟨get_long_no_wrap.2.2.1 "9223372036854775808".toList (by decide) (by decide) (by decide)
      (by decide),
   get_long_no_wrap.1 '0' 'x' "10000000000000000".toList (Or.inl rfl) (Or.inl rfl) (by decide)
      (by decide) (by decide),
   get_long_no_wrap.2.2.2.1 "9223372036854775809".toList (by decide) (by decide) (by decide),
   get_long_no_wrap.2.1 "1000000000000000000000".toList (by decide) (by decide) (by decide),
   ⟨by decide, (get_long_no_wrap.2.2.2.2 "0x7f".toList 127 (by decide)).2.1⟩⟩

/-! ### The length of the write payload and its buffer -/

theorem pairBytes_length : ∀ (n : Nat) (l : List Char), l.length ≤ n →
    (pairBytes l).length = (l.length + 1) / 2 := by
  intro n
  induction n using Nat.strong_induction_on with
  | _ n ih =>
    intro l hl
    match l with
    | [] => rfl
    | [d] => simp [pairBytes]
    | d1 :: d2 :: t =>
      simp only [List.length_cons] at hl
      rw [pairBytes, List.length_cons, ih t.length (by omega) t (le_refl _)]
      simp only [List.length_cons]
      omega

/-- A successful `write_data` had a first character, found no character that is
neither white space nor a hex digit, and hands on the reference decoding. -/
theorem write_data_ok {text : List Char} {bytes : List Nat} (h : write_data text = .ok bytes) :
    text.find? notPayloadChar = none ∧ bytes = referenceDecode text := by
  by_cases hh : charAt text 0 = '\x00'
  · simp [write_data, hh] at h
  · rw [write_data_of_head hh] at h
    cases hf : text.find? notPayloadChar with
    | some c => rw [hf] at h; cases h
    | none =>
      rw [hf] at h
      exact ⟨rfl, (Except.ok.inj h).symm⟩

/-- In a text without a character that is neither white space nor a hex digit, the
characters that are no white space are the hex digits. -/
theorem filter_not_isspace_eq {text : List Char} (h : text.find? notPayloadChar = none) :
    text.filter (fun c => !isspace c) = text.filter isxdigit := by
  rw [List.find?_eq_none] at h
  apply List.filter_congr
  intro c hc
  have := h c hc
  cases hx : isxdigit c with
  | true => simp [not_isspace_of_isDigitOf (show isDigitOf 16 c = true from hx)]
  | false =>
    cases hs : isspace c with
    | true => rfl
    | false => simp [notPayloadChar, hx, hs] at this

/-- The stores of the conversion loop go to consecutive indices, one for every
pair of hex digits and one for a digit that is left. -/
theorem write_data_stores_eq (text : List Char) :
    ∀ (b : Char) (data : List Nat), (b = '\x00' ∨ isxdigit b = true) →
      text.find? notPayloadChar = none →
        write_data_stores text ⟨b, '\x00', data⟩ =
          List.range' data.length
            (((pendingDigit b).length + (text.filter (fun c => !isspace c)).length + 1) / 2) := by
  induction text with
  | nil =>
    intro b data hb _
    rcases hb with rfl | hb
    · simp [write_data_stores, pendingDigit]
    · have hne := isxdigit_ne_nul hb
      simp [write_data_stores, pendingDigit, hne, List.range']
  | cons p ps ih =>
    intro b data hb hf
    have hp : notPayloadChar p = false := by
      rw [List.find?_eq_none] at hf
      simpa using hf p (by simp)
    have hps : ps.find? notPayloadChar = none := by
      rw [List.find?_eq_none] at hf ⊢
      exact fun c hc => hf c (by simp [hc])
    by_cases hs : isspace p = true
    · rw [write_data_stores, if_pos hs, ih b data hb hps]
      simp [List.filter, hs]
    · simp only [Bool.not_eq_true] at hs
      have hx : isxdigit p = true := by
        cases hx : isxdigit p with
        | true => rfl
        | false => simp [notPayloadChar, hs, hx] at hp
      rcases hb with rfl | hb
      · rw [write_data_stores]
        simp only [hs, hx, Bool.false_eq_true, if_false, Bool.not_true, beq_self_eq_true,
          if_true]
        rw [ih p data (Or.inr hx) hps]
        simp only [pendingDigit, isxdigit_ne_nul hx, if_false, List.length_singleton, if_true,
          List.length_nil, List.filter, hs, Bool.not_false, List.length_cons]
        congr 1
        omega
      · have hne := isxdigit_ne_nul hb
        have hbeq : (b == '\x00') = false := by simpa using hne
        rw [write_data_stores]
        simp only [hs, hx, Bool.false_eq_true, if_false, Bool.not_true, hbeq, beq_self_eq_true,
          if_true, strtouchar_pair hb hx]
        rw [ih '\x00' _ (Or.inl rfl) hps]
        simp only [pendingDigit, hne, if_false, List.length_singleton, if_true,
          List.length_nil, List.filter, hs, Bool.not_false, List.length_cons,
          List.length_append]
        have e : (1 + ((List.filter (fun c => !isspace c) ps).length + 1) + 1) / 2 =
            (0 + (List.filter (fun c => !isspace c) ps).length + 1) / 2 + 1 := by omega
        rw [e, List.range'_succ]

/-- Claim C16: an argument of length `L` that decodes yields `ceil(d / 2)` bytes
for its `d` hex digits; the stores of the decoder go to the indices
0, 1, ... in this order, one per byte, and every one of them is below the
capacity `L / 2 + 2` of the buffer. -/
theorem write_data_length_and_bound (text : List Char) (bytes : List Nat)
    (h : write_data text = .ok bytes) :
    bytes.length = ((text.filter isxdigit).length + 1) / 2 ∧
    write_data_stores text ⟨'\x00', '\x00', []⟩ = List.range bytes.length ∧
    (∀ i ∈ write_data_stores text ⟨'\x00', '\x00', []⟩, i < text.length / 2 + 2) ∧
    1 ≤ text.length := by
  obtain ⟨hf, hb⟩ := write_data_ok h
  have hlen : bytes.length = ((text.filter isxdigit).length + 1) / 2 := by
    rw [hb, referenceDecode, pairBytes_length _ _ (le_refl _), filter_not_isspace_eq hf]
  have hst : write_data_stores text ⟨'\x00', '\x00', []⟩ = List.range bytes.length := by
    rw [write_data_stores_eq text '\x00' [] (Or.inl rfl) hf, hlen, filter_not_isspace_eq hf,
      List.range_eq_range']
    simp [pendingDigit]
  have hd : (text.filter isxdigit).length ≤ text.length := List.length_filter_le _ _
  refine ⟨hlen, hst, ?_, ?_⟩
  · intro i hi
    rw [hst, List.mem_range, hlen] at hi
    omega
  · cases text with
    | nil =>
      have he : write_data [] = .error .emptyArgument := by decide
      rw [he] at h
      cases h
    | cons c t => simp

/-- Claim C16 at `ABC`, of length 3: 2 bytes, stored at the indices 0 and 1, below
the capacity 3. -/
theorem write_data_length_and_bound_witness :
    write_data "ABC".toList = .ok [0xAB, 0x0C] ∧
    ([0xAB, 0x0C] : List Nat).length = (("ABC".toList.filter isxdigit).length + 1) / 2 ∧
    write_data_stores "ABC".toList ⟨'\x00', '\x00', []⟩ = [0, 1] :=
  ⟨by decide,
   (write_data_length_and_bound "ABC".toList [0xAB, 0x0C] (by decide)).1,
   (write_data_length_and_bound "ABC".toList [0xAB, 0x0C] (by decide)).2.1⟩

/-! ### The dump read back by `write_data` -/

theorem digitValue_hexUpper {d : Nat} (h : d < 16) : digitValue (hexUpper d) = some d := by
  interval_cases d <;> decide

theorem isxdigit_hexUpper {d : Nat} (h : d < 16) : isxdigit (hexUpper d) = true :=
  isDigitOf_iff.2 ⟨d, digitValue_hexUpper h, h⟩

theorem isspace_hexUpper {d : Nat} (h : d < 16) : isspace (hexUpper d) = false :=
  not_isspace_of_isDigitOf (isxdigit_hexUpper h)

theorem format02X_clean (c : Nat) :
    (∀ ch ∈ format02X c, isxdigit ch = true) ∧
    (format02X c).filter (fun ch => !isspace ch) = format02X c := by
  have h1 : c % 256 / 16 < 16 := by omega
  have h2 : c % 256 % 16 < 16 := by omega
  constructor
  · intro ch hch
    simp only [format02X, List.mem_cons, List.mem_singleton, List.not_mem_nil, or_false] at hch
    rcases hch with rfl | rfl
    · exact isxdigit_hexUpper h1
    · exact isxdigit_hexUpper h2
  · simp [format02X, List.filter, isspace_hexUpper h1, isspace_hexUpper h2]

/-- The dump consists of white space and hex digits only, and its hex digits are
the two uppercase digits of each byte, in order. -/
theorem read_data_loop_clean (len : Int) : ∀ (b : List Nat) (i : Nat),
    (i : Int) + b.length ≤ len →
      (∀ ch ∈ read_data_loop len b i, isxdigit ch = true ∨ isspace ch = true) ∧
      (read_data_loop len b i).filter (fun ch => !isspace ch) = hexText b := by
  intro b
  induction b with
  | nil =>
    intro i _
    by_cases h : (i : Int) < len
    · simp only [read_data_loop, if_pos h]
      exact ⟨fun ch hch => by rw [List.mem_singleton.1 hch]; exact Or.inr (by decide), by decide⟩
    · simp [read_data_loop, h, hexText]
  | cons c t ih =>
    intro i h
    simp only [List.length_cons, Nat.cast_add, Nat.cast_one] at h
    obtain ⟨m, f⟩ := ih (i + 1) (by push_cast; omega)
    obtain ⟨mc, fc⟩ := format02X_clean c
    rw [read_data_loop_cons len c t i (by omega)]
    have hsp : isspace ' ' = true := by decide
    have hnl : isspace '\n' = true := by decide
    constructor
    · intro ch hch
      simp only [List.mem_append, List.mem_cons] at hch
      rcases hch with ((( rfl | hch) | hch) | hch) | hch
      · exact Or.inr hsp
      · exact Or.inl (mc ch hch)
      · split_ifs at hch
        · rw [List.mem_singleton.1 hch]; exact Or.inr hsp
        · cases hch
      · split_ifs at hch
        · rw [List.mem_singleton.1 hch]; exact Or.inr hnl
        · cases hch
      · exact m ch hch
    · simp only [List.filter_append, f, hexText]
      have e1 : List.filter (fun ch => !isspace ch) (' ' :: format02X c) = format02X c := by
        rw [List.filter_cons]
        simp [hsp, fc]
      have e2 : List.filter (fun ch => !isspace ch)
          (if (i + 1) % 4 = 0 ∧ (i + 1) % 16 ≠ 0 then [' '] else []) = [] := by
        split_ifs <;> simp [List.filter, hsp]
      have e3 : List.filter (fun ch => !isspace ch)
          (if ((i : Int) + 1 = len ∧ len ≤ 2147483647) ∨ (i + 1) % 16 = 0
            then ['\n'] else []) = [] := by
        split_ifs <;> simp [List.filter, hnl]
      rw [e1, e2, e3]
      simp

/-- The reference decoder reads the two hex digits of each byte back as the byte. -/
theorem pairBytes_hexText : ∀ b : List Nat, (∀ x ∈ b, x < 256) → pairBytes (hexText b) = b := by
  intro b
  induction b with
  | nil => intro _; rfl
  | cons c t ih =>
    intro h
    have hc : c < 256 := h c (by simp)
    have h1 : c % 256 / 16 < 16 := by omega
    have h2 : c % 256 % 16 < 16 := by omega
    have e : hexText (c :: t) =
        hexUpper (c % 256 / 16) :: hexUpper (c % 256 % 16) :: hexText t := rfl
    rw [e, pairBytes, ih (fun x hx => h x (by simp [hx]))]
    simp only [hexDigitValue, digitValue_hexUpper h1, digitValue_hexUpper h2, Option.getD_some]
    rw [shift_or_eq _ h1 _ h2]
    congr 1
    omega

/-- A non-empty text of hex digits and white space decodes to its reference
decoding. -/
theorem write_data_of_clean {text : List Char} (hne : text ≠ [])
    (h : ∀ c ∈ text, isxdigit c = true ∨ isspace c = true) :
    write_data text = .ok (referenceDecode text) := by
  have hnul : ∀ c ∈ text, c ≠ '\x00' := fun c hc =>
    (h c hc).elim isxdigit_ne_nul isspace_ne_nul
  rw [write_data_of_head (charAt_zero_ne_nul hne hnul), find_notPayloadChar_none h]

/-- Claim C19: the dump can be fed back to the write. For every non-empty
sequence `b` of bytes, the decoder of `write_data` applied to the text the
dump loop prints for `b`, with the requested length `|b|` or a larger one,
succeeds and returns `b`. -/
theorem write_data_read_data_loop (b : List Nat) (len : Int) (hne : b ≠ [])
    (hb : ∀ x ∈ b, x < 256) (hlen : (b.length : Int) ≤ len) :
    write_data (read_data_loop len b 0) = .ok b := by
  obtain ⟨m, f⟩ := read_data_loop_clean len b 0 (by simpa using hlen)
  have hout : read_data_loop len b 0 ≠ [] := by
    obtain ⟨c, t, rfl⟩ := List.exists_cons_of_ne_nil hne
    simp only [List.length_cons, Nat.cast_add, Nat.cast_one] at hlen
    rw [read_data_loop_cons len c t 0 (by simp; omega)]
    simp
  rw [write_data_of_clean hout m, referenceDecode, f, pairBytes_hexText b hb]

/-- Claim C19 at 17 bytes, with the requested lengths 17 and 100. -/
theorem write_data_read_data_loop_witness :
    write_data (read_data_loop 17 (List.range 17) 0) = .ok (List.range 17) ∧
    write_data (read_data_loop 100 (List.range 17) 0) = .ok (List.range 17) :=
  ⟨write_data_read_data_loop (List.range 17) 17 (by decide) (by decide) (by decide),
   write_data_read_data_loop (List.range 17) 100 (by decide) (by decide) (by decide)⟩

/-! ### Every byte as a fill byte -/

set_option maxRecDepth 100000 in
/-- Claim C20: every byte value is reachable as a fill byte. For every `v` from 0
to 255 the resolution of a backslash and the decimal digits of `v`, and of
`0x` or `\x` and the hex digits of `v`, lowercase without leading zero or
uppercase with two digits, succeeds with `v`. No decimal digit is a letter of
the escape table, and no entry of the table is 0. -/
theorem memset_char_every_byte :
    (∀ v < 256,
      memset_char ('\\' :: Nat.toDigits 10 v) = .ok v ∧
      memset_char ('0' :: 'x' :: Nat.toDigits 16 v) = .ok v ∧
      memset_char ('\\' :: 'x' :: Nat.toDigits 16 v) = .ok v ∧
      memset_char ('0' :: 'x' :: format02X v) = .ok v ∧
      memset_char ('\\' :: 'x' :: format02X v) = .ok v) ∧
    (∀ c : Char, isDigitOf 10 c = true → controlCharacter c = 0 ∧ isTableEscape ['\\', c] = false) ∧
    (∀ e ∈ escapeTable, e.2 ≠ 0 ∧ controlCharacter e.1 = e.2) := by
  refine ⟨by decide, fun c hc => ⟨controlCharacter_of_digit hc, ?_⟩, by decide⟩
  have hdef : isTableEscape ['\\', c] = escapeTable.any (fun e => e.1 == c) := rfl
  rw [hdef]
  have := (controlCharacter_ne_zero_iff c).not.1 (by simp [controlCharacter_of_digit hc])
  simpa only [Bool.not_eq_true] using this

/-- Claim C20 at `\0`, `\7`, `\65`, `\255`, `0xff` and `\xFF`. -/
theorem memset_char_every_byte_witness :
    memset_char "\\0".toList = .ok 0 ∧ memset_char "\\7".toList = .ok 7 ∧
    memset_char "\\65".toList = .ok 65 ∧ memset_char "\\255".toList = .ok 255 ∧
    memset_char "0xff".toList = .ok 255 ∧ memset_char "\\xFF".toList = .ok 255 :=
  ⟨(memset_char_every_byte.1 0 (by decide)).1, (memset_char_every_byte.1 7 (by decide)).1,
   (memset_char_every_byte.1 65 (by decide)).1, (memset_char_every_byte.1 255 (by decide)).1,
   (memset_char_every_byte.1 255 (by decide)).2.1,
   (memset_char_every_byte.1 255 (by decide)).2.2.2.2⟩

end Hexedit
